import Mathlib

/-!
Verification of the constrained combination-search engine of
`combineList.py` against its natural-language specification.

The engine is shallowly embedded: Python `Decimal` values (exact decimals)
become rationals `ℚ`, Python integers become `ℤ`, the per-item constraint
dictionary becomes an association list with distinct keys, and the
`while self.stack` loop of `find_next_solution` becomes a fuel-indexed
recursion (`none` = fuel ran out, never returned by the real loop).
A Python `decimal.DivisionByZero` exception (raised by `//` on a zero
price) is modelled by an explicit `crash` result.
-/

/-- A per-item constraint, the value stored in `SolutionFinder.constraints`
(`{"min": …, "max": …}` in the source). -/
structure Constraint where
  min : ℤ
  max : ℤ
deriving DecidableEq, Repr

/-- The constraint dictionary `self.constraints`: item index ↦ constraint.
A Python `dict` is modelled as an association list; keys of an actual
`dict` are pairwise distinct. -/
abbrev Constraints := List (ℕ × Constraint)

/-- Dictionary lookup `self.constraints[idx]` / `idx in self.constraints`. -/
def lookupC (cs : Constraints) (i : ℕ) : Option Constraint :=
  (cs.find? (fun pc => pc.1 == i)).map Prod.snd

/-- `SolutionFinder.set_constraint`: unconditional dictionary assignment
`self.constraints[product_index] = {"min": min_qty, "max": max_qty}`.
The source performs no validation whatsoever. -/
def set_constraint (cs : Constraints) (product_index : ℕ) (min_qty max_qty : ℤ) :
    Constraints :=
  if cs.any (fun pc => pc.1 == product_index) then
    cs.map (fun pc => if pc.1 == product_index then (product_index, ⟨min_qty, max_qty⟩) else pc)
  else
    cs ++ [(product_index, ⟨min_qty, max_qty⟩)]

/-- The configuration of one search session: the global `products` list
(only the exact-decimal `price` field matters to the engine; names are
irrelevant) together with the `SolutionFinder` fields `min_total`,
`max_total` and `constraints`, all fixed for the session. -/
structure SolutionFinder where
  products : List ℚ
  min_total : ℚ
  max_total : ℚ
  constraints : Constraints
deriving DecidableEq

/-- Truncation of a rational toward zero: the value of Python `Decimal`
floor-division `a // b` (which truncates, unlike `int // int`). -/
def ratTrunc (x : ℚ) : ℤ :=
  if 0 ≤ x then ⌊x⌋ else -⌊-x⌋

/-- Python `Decimal` division `a // b` followed by `int(...)`. Only the
`b ≠ 0` case is ever reached by the embedded engine (a zero divisor raises
`decimal.DivisionByZero` in the source, modelled as a crash before this
function is consulted). -/
def trunc_div (a b : ℚ) : ℤ := ratTrunc (a / b)

/-- `calculate_max_quantity(product_price, max_total)` from the source:
`return 100` when the price is exactly zero (the in-code comment says this
guards against division by zero), else `int(max_total // product_price)`. -/
def calculate_max_quantity (product_price max_total : ℚ) : ℤ :=
  if product_price = 0 then 100 else trunc_div max_total product_price

/-- The list `[hi, hi - 1, …, lo]` — Python `range(hi, lo - 1, -1)`,
the order in which both branching loops of `find_next_solution` iterate
and push. Empty when `hi < lo`. -/
def descRange (hi lo : ℤ) : List ℤ :=
  (List.range (hi + 1 - lo).toNat).map (fun (j : ℕ) => hi - (j : ℤ))

/-- A candidate state `(idx, quantities, current_cost)` as stored on
`self.stack`. -/
structure Frame where
  idx : ℕ
  quantities : List ℤ
  cost : ℚ
deriving DecidableEq

/-- The exact weighted total `sum(quantities[i] * products[i]["price"])`. -/
def dot (qs : List ℤ) (ps : List ℚ) : ℚ :=
  (List.zipWith (fun (q : ℤ) (p : ℚ) => (q : ℚ) * p) qs ps).sum

/-- One successor pushed by the constrained branch (lines 108–113): copy
the vector, set `quantities[idx] = qty`, add `(qty - quantities[idx]) *
price` to the cost, and keep the state only if the new cost is within
`max_total`. -/
def childC (sf : SolutionFinder) (idx : ℕ) (qs : List ℤ) (c : ℚ) (qty : ℤ) :
    Option Frame :=
  let nc := c + ((qty : ℚ) - ((qs.getD idx 0 : ℤ) : ℚ)) * sf.products.getD idx 0
  if nc ≤ sf.max_total then some ⟨idx + 1, qs.set idx qty, nc⟩ else none

/-- One successor pushed by the unconstrained branch (lines 118–123):
`new_cost = current_cost + qty * price`. -/
def childU (sf : SolutionFinder) (idx : ℕ) (qs : List ℤ) (c : ℚ) (qty : ℤ) :
    Option Frame :=
  let nc := c + (qty : ℚ) * sf.products.getD idx 0
  if nc ≤ sf.max_total then some ⟨idx + 1, qs.set idx qty, nc⟩ else none

/-- All successor states pushed when branching on item `idx`, in push
order (first pushed first).  Constrained items iterate
`range(max_val, min_val - 1, -1)`; unconstrained items iterate
`range(int((max_total - current_cost) // price), -1, -1)`. -/
def children (sf : SolutionFinder) (idx : ℕ) (qs : List ℤ) (c : ℚ) : List Frame :=
  match lookupC sf.constraints idx with
  | some cst => (descRange cst.max cst.min).filterMap (childC sf idx qs c)
  | none =>
      (descRange (trunc_div (sf.max_total - c) (sf.products.getD idx 0)) 0).filterMap
        (childU sf idx qs c)

/-- The unconstrained branch is about to compute
`(max_total - current_cost) // price` with `price == Decimal(0)`, which
raises `decimal.DivisionByZero` in the source. -/
def crashes_at (sf : SolutionFinder) (idx : ℕ) : Prop :=
  lookupC sf.constraints idx = none ∧ sf.products.getD idx 0 = 0

instance (sf : SolutionFinder) (idx : ℕ) : Decidable (crashes_at sf idx) := by
  unfold crashes_at; infer_instance

/-- The constraint-membership check of lines 93–97: every explicitly
constrained item's final quantity lies in its declared interval. -/
def constraints_sat (cs : Constraints) (qs : List ℤ) : Prop :=
  ∀ pc ∈ cs, pc.2.min ≤ qs.getD pc.1 0 ∧ qs.getD pc.1 0 ≤ pc.2.max

instance (cs : Constraints) (qs : List ℤ) : Decidable (constraints_sat cs qs) :=
  List.decidableBAll _ cs

/-- The full acceptance test of a finished vector (lines 92–97):
`min_total <= current_cost <= max_total` and every constraint satisfied. -/
def leaf_ok (sf : SolutionFinder) (qs : List ℤ) (c : ℚ) : Prop :=
  sf.min_total ≤ c ∧ c ≤ sf.max_total ∧ constraints_sat sf.constraints qs

instance (sf : SolutionFinder) (qs : List ℤ) (c : ℚ) : Decidable (leaf_ok sf qs c) := by
  unfold leaf_ok; infer_instance

/-- Result of processing one popped frame inside the `while` loop. -/
inductive PopOut where
  /-- Loop again with this stack and seen-set (branch pushed, or leaf
  rejected / duplicate). -/
  | next (stack : List Frame) (seen : List (List ℤ))
  /-- `return True, quantities, current_cost` — the vector was recorded in
  `found_solutions` first. -/
  | emit (qs : List ℤ) (cost : ℚ) (stack : List Frame) (seen : List (List ℤ))
  /-- `decimal.DivisionByZero` raised. -/
  | err (seen : List (List ℤ))
deriving DecidableEq

/-- One iteration of the `while self.stack` loop after popping `f` off a
stack whose remainder is `rest` (`deque.pop` takes the most recently
appended element, so the stack is a list with its top at the head; pushing
the loop's sequence of appends puts them on in reverse). -/
def popStep (sf : SolutionFinder) (f : Frame) (rest : List Frame)
    (seen : List (List ℤ)) : PopOut :=
  if f.idx = sf.products.length then
    if leaf_ok sf f.quantities f.cost then
      if f.quantities ∈ seen then .next rest seen
      else .emit f.quantities f.cost rest (f.quantities :: seen)
    else .next rest seen
  else
    if crashes_at sf f.idx then .err seen
    else .next ((children sf f.idx f.quantities f.cost).reverse ++ rest) seen

/-- Outcome of one `find_next_solution` call. -/
inductive FindRes where
  /-- `return True, quantities, current_cost`; also carries the stack and
  `found_solutions` afterwards, plus the unconsumed fuel. -/
  | found (qs : List ℤ) (cost : ℚ) (stack : List Frame)
      (seen : List (List ℤ)) (fuelLeft : ℕ)
  /-- `return False, None, None` — the stack (always empty here) and the
  seen set afterwards. -/
  | exhausted (stack : List Frame) (seen : List (List ℤ))
  /-- `decimal.DivisionByZero` raised out of the call. -/
  | crash (seen : List (List ℤ))
deriving DecidableEq

/-- `SolutionFinder.find_next_solution` (lines 86–124): pop until a fresh
feasible solution is returned or the stack is exhausted.  The fuel bounds
the number of loop iterations; `none` means the fuel ran out. -/
def find_next_solution (sf : SolutionFinder) :
    ℕ → List Frame → List (List ℤ) → Option FindRes
  | 0, _, _ => none
  | _ + 1, [], seen => some (.exhausted [] seen)
  | fuel + 1, f :: rest, seen =>
    match popStep sf f rest seen with
    | .next st' seen' => find_next_solution sf fuel st' seen'
    | .emit qs c st' seen' => some (.found qs c st' seen' fuel)
    | .err seen' => some (.crash seen')

/-- `initial_quantities` of `initialize_search` (lines 76–78): a zero
vector of catalog length with each constrained item preset to its
minimum. -/
def initial_quantities (sf : SolutionFinder) : List ℤ :=
  sf.constraints.foldl (fun qs pc => qs.set pc.1 pc.2.min)
    (List.replicate sf.products.length 0)

/-- `initial_cost` of `initialize_search` (lines 80–83). -/
def initial_cost (sf : SolutionFinder) : ℚ :=
  dot (initial_quantities sf) sf.products

/-- The single state pushed by `initialize_search`. -/
def init_frame (sf : SolutionFinder) : Frame :=
  ⟨0, initial_quantities sf, initial_cost sf⟩

/-- The mutable per-session state of a `SolutionFinder` object: `self.stack`
and `self.found_solutions`. -/
structure FinderState where
  stack : List Frame
  found_solutions : List (List ℤ)
deriving DecidableEq

/-- `SolutionFinder.initialize_search` (lines 73–84): replace the stack by
the single initial candidate state; `found_solutions` (created once in
`__init__`) is not touched. -/
def initialize_search (sf : SolutionFinder) (fs : FinderState) : FinderState :=
  ⟨[init_frame sf], fs.found_solutions⟩

/-- Everything a whole session produced: the solutions in emission order,
the final seen-set, and whether a `DivisionByZero` escaped. -/
structure RunOut where
  sols : List (List ℤ × ℚ)
  seen : List (List ℤ)
  crashed : Bool
deriving DecidableEq

/-- Driver loop of `main` (lines 290–297): call `find_next_solution`
repeatedly, collecting solutions, until `found` is `False`.  `calls`
bounds the number of calls and `popFuel` the loop iterations within each
call; `none` means a bound ran out. -/
def session (sf : SolutionFinder) :
    ℕ → ℕ → List Frame → List (List ℤ) → Option RunOut
  | 0, _, _, _ => none
  | calls + 1, popFuel, st, seen =>
    match find_next_solution sf popFuel st seen with
    | none => none
    | some (.crash seen') => some ⟨[], seen', true⟩
    | some (.exhausted _ seen') => some ⟨[], seen', false⟩
    | some (.found qs c st' seen' _) =>
      Option.map (fun out => ⟨(qs, c) :: out.sols, out.seen, out.crashed⟩)
        (session sf calls popFuel st' seen')

/-- The same process with a single fuel counting individual stack pops:
the whole-session run of the engine, flattened. -/
def runAll (sf : SolutionFinder) :
    ℕ → List Frame → List (List ℤ) → Option RunOut
  | 0, _, _ => none
  | _ + 1, [], seen => some ⟨[], seen, false⟩
  | fuel + 1, f :: rest, seen =>
    match popStep sf f rest seen with
    | .next st' seen' => runAll sf fuel st' seen'
    | .emit qs c st' seen' =>
      Option.map (fun out => ⟨(qs, c) :: out.sols, out.seen, out.crashed⟩)
        (runAll sf fuel st' seen')
    | .err seen' => some ⟨[], seen', true⟩

/-- The feasible leaves of the search tree below one candidate state, in
the order the engine visits them (`k` = number of still-undecided items),
before deduplication. -/
def leaves (sf : SolutionFinder) : ℕ → ℕ → List ℤ → ℚ → List (List ℤ × ℚ)
  | 0, _, qs, c => if leaf_ok sf qs c then [(qs, c)] else []
  | k + 1, idx, qs, c =>
    ((children sf idx qs c).reverse).flatMap
      (fun f => leaves sf k f.idx f.quantities f.cost)

/-- Sequential deduplication against a seen-set: what the
`found_solutions` test makes of a stream of feasible leaves. -/
def dedup_emit (seen : List (List ℤ)) :
    List (List ℤ × ℚ) → List (List ℤ × ℚ) × List (List ℤ)
  | [] => ([], seen)
  | (qs, c) :: rest =>
    if qs ∈ seen then dedup_emit seen rest
    else
      let r := dedup_emit (qs :: seen) rest
      ((qs, c) :: r.1, r.2)

/-- Number of stack pops needed to exhaust the subtree below one candidate
state (`k` = number of still-undecided items). -/
def treeSize (sf : SolutionFinder) : ℕ → ℕ → List ℤ → ℚ → ℕ
  | 0, _, _, _ => 1
  | k + 1, idx, qs, c =>
    1 + (((children sf idx qs c).reverse).map
      (fun f => treeSize sf k f.idx f.quantities f.cost)).sum

/-- Total pops needed to exhaust a whole stack. -/
def stackSize (sf : SolutionFinder) (st : List Frame) : ℕ :=
  (st.map (fun f => treeSize sf (sf.products.length - f.idx) f.idx f.quantities f.cost)).sum

/-- The quantity a candidate state holds at a still-undecided index:
the constrained minimum, or `0`. -/
def defaultQty (sf : SolutionFinder) (i : ℕ) : ℤ :=
  match lookupC sf.constraints i with
  | some cst => cst.min
  | none => 0

/-- The exact cost of a partially decided vector: decided entries weighted
by their prices plus the preset constrained minimums of the undecided
entries.  This (not the spec's prefix-only sum) is what `current_cost`
tracks. -/
def mixCost (sf : SolutionFinder) (idx : ℕ) (qs : List ℤ) : ℚ :=
  ∑ i ∈ Finset.range sf.products.length,
    (if i < idx then ((qs.getD i 0 : ℤ) : ℚ) else ((defaultQty sf i : ℤ) : ℚ)) *
      sf.products.getD i 0

/-- The invariant actually maintained by every candidate state: full-length
vector, index in range, undecided entries preset to their default, and
`current_cost = mixCost`. -/
def frame_inv (sf : SolutionFinder) (f : Frame) : Prop :=
  f.quantities.length = sf.products.length ∧
  f.idx ≤ sf.products.length ∧
  (∀ i, i < sf.products.length → f.idx ≤ i → f.quantities.getD i 0 = defaultQty sf i) ∧
  f.cost = mixCost sf f.idx f.quantities

/-- The candidate-state invariant claimed by the spec: undecided entries
are zero and `running_cost` is the weighted sum of the decided ones only. -/
def spec_frame_inv (sf : SolutionFinder) (f : Frame) : Prop :=
  (∀ i, i < sf.products.length → f.idx ≤ i → f.quantities.getD i 0 = 0) ∧
  f.cost = ∑ i ∈ Finset.range f.idx, ((f.quantities.getD i 0 : ℤ) : ℚ) * sf.products.getD i 0

/-- Stacks and seen-sets that can ever occur during a session: the state
right after `initialize_search` (with whatever `found_solutions` holds),
and anything reachable from it by single pops of the `while` loop. -/
inductive Reachable (sf : SolutionFinder) : List Frame → List (List ℤ) → Prop where
  | init (seen : List (List ℤ)) : Reachable sf [init_frame sf] seen
  | step_next {f rest seen st' seen'} : Reachable sf (f :: rest) seen →
      popStep sf f rest seen = .next st' seen' → Reachable sf st' seen'
  | step_emit {f rest seen qs c st' seen'} : Reachable sf (f :: rest) seen →
      popStep sf f rest seen = .emit qs c st' seen' → Reachable sf st' seen'

/-- A quantity vector the specification's brute-force description accepts:
catalog length, exact weighted total inside the closed interval, and every
explicitly constrained entry inside its declared interval.  (Taken from the
spec's words, for comparison with what the engine returns.) -/
def spec_feasible (sf : SolutionFinder) (v : List ℤ) : Prop :=
  v.length = sf.products.length ∧
  sf.min_total ≤ dot v sf.products ∧ dot v sf.products ≤ sf.max_total ∧
  ∀ pc ∈ sf.constraints, pc.2.min ≤ v.getD pc.1 0 ∧ v.getD pc.1 0 ≤ pc.2.max

instance (sf : SolutionFinder) (v : List ℤ) : Decidable (spec_feasible sf v) := by
  unfold spec_feasible; infer_instance

/-- `spec_feasible` strengthened by what the engine actually enforces on
items without an explicit constraint: their quantities are enumerated
downward from a budget bound to `0`, hence are never negative. -/
def spec_feasible_nonneg (sf : SolutionFinder) (v : List ℤ) : Prop :=
  spec_feasible sf v ∧
  ∀ i, i < sf.products.length → lookupC sf.constraints i = none → 0 ≤ v.getD i 0

instance (sf : SolutionFinder) (v : List ℤ) : Decidable (spec_feasible_nonneg sf v) := by
  unfold spec_feasible_nonneg; infer_instance

theorem popStep_next_seen {sf : SolutionFinder} {f rest seen st' seen'}
    (h : popStep sf f rest seen = .next st' seen') : seen' = seen := by
  unfold popStep at h
  split_ifs at h <;> simp_all

theorem popStep_emit_char {sf : SolutionFinder} {f rest seen qs c st' seen'}
    (h : popStep sf f rest seen = .emit qs c st' seen') :
    f.idx = sf.products.length ∧ qs = f.quantities ∧ c = f.cost ∧ st' = rest ∧
    leaf_ok sf f.quantities f.cost ∧ f.quantities ∉ seen ∧ seen' = f.quantities :: seen := by
  unfold popStep at h
  split_ifs at h with h1 h2 h3 h4 <;> cases h
  exact ⟨h1, rfl, rfl, rfl, h2, h3, rfl⟩

theorem popStep_err_char {sf : SolutionFinder} {f rest seen seen'}
    (h : popStep sf f rest seen = .err seen') :
    seen' = seen ∧ f.idx ≠ sf.products.length ∧ crashes_at sf f.idx := by
  unfold popStep at h
  split_ifs at h <;> simp_all

theorem popStep_next_char {sf : SolutionFinder} {f rest seen st' seen'}
    (h : popStep sf f rest seen = .next st' seen') :
    seen' = seen ∧
    ((f.idx = sf.products.length ∧ st' = rest) ∨
     (f.idx ≠ sf.products.length ∧ ¬ crashes_at sf f.idx ∧
      st' = (children sf f.idx f.quantities f.cost).reverse ++ rest)) := by
  unfold popStep at h
  split_ifs at h <;> simp_all

theorem find_exh {sf : SolutionFinder} :
    ∀ {fuel st seen st' seen'},
      find_next_solution sf fuel st seen = some (.exhausted st' seen') →
      st' = [] ∧ seen' = seen := by
  intro fuel
  induction fuel with
  | zero => intro st seen st' seen' h; simp [find_next_solution] at h
  | succ n ih =>
    intro st seen st' seen' h
    cases st with
    | nil =>
      simp only [find_next_solution, Option.some.injEq, FindRes.exhausted.injEq] at h
      exact ⟨h.1.symm, h.2.symm⟩
    | cons f rest =>
      rw [find_next_solution] at h
      cases hp : popStep sf f rest seen with
      | next st2 seen2 =>
        rw [hp] at h
        have hr := ih h
        exact ⟨hr.1, hr.2.trans (popStep_next_seen hp)⟩
      | emit qs c st2 seen2 => rw [hp] at h; simp at h
      | err seen2 => rw [hp] at h; simp at h

theorem find_crash_seen {sf : SolutionFinder} :
    ∀ {fuel st seen seen'},
      find_next_solution sf fuel st seen = some (.crash seen') → seen' = seen := by
  intro fuel
  induction fuel with
  | zero => intro st seen seen' h; simp [find_next_solution] at h
  | succ n ih =>
    intro st seen seen' h
    cases st with
    | nil => simp [find_next_solution] at h
    | cons f rest =>
      rw [find_next_solution] at h
      cases hp : popStep sf f rest seen with
      | next st2 seen2 =>
        rw [hp] at h
        exact (ih h).trans (popStep_next_seen hp)
      | emit qs c st2 seen2 => rw [hp] at h; simp at h
      | err seen2 =>
        rw [hp] at h
        simp only [Option.some.injEq, FindRes.crash.injEq] at h
        exact h ▸ (popStep_err_char hp).1

theorem find_found_seen {sf : SolutionFinder} :
    ∀ {fuel st seen qs c st' seen' fl},
      find_next_solution sf fuel st seen = some (.found qs c st' seen' fl) →
      qs ∉ seen ∧ seen' = qs :: seen := by
  intro fuel
  induction fuel with
  | zero => intro st seen qs c st' seen' fl h; simp [find_next_solution] at h
  | succ n ih =>
    intro st seen qs c st' seen' fl h
    cases st with
    | nil => simp [find_next_solution] at h
    | cons f rest =>
      rw [find_next_solution] at h
      cases hp : popStep sf f rest seen with
      | next st2 seen2 =>
        rw [hp] at h
        have := popStep_next_seen hp
        subst this
        exact ih h
      | emit qs2 c2 st2 seen2 =>
        rw [hp] at h
        simp only [Option.some.injEq, FindRes.found.injEq] at h
        obtain ⟨h1, h2, h3, h4, h5⟩ := h
        obtain ⟨hidx, hq, hc', hst, hleaf, hmem, hsn⟩ := popStep_emit_char hp
        constructor
        · rw [← h1, hq]; exact hmem
        · rw [← h4, hsn, ← h1, hq]
      | err seen2 => rw [hp] at h; simp at h

theorem session_props {sf : SolutionFinder} :
    ∀ {calls popFuel st seen out},
      session sf calls popFuel st seen = some out →
      (out.sols.map Prod.fst).Nodup ∧
      (∀ v ∈ out.sols.map Prod.fst, v ∉ seen) ∧
      (∀ v ∈ seen, v ∈ out.seen) ∧
      (∀ v ∈ out.sols.map Prod.fst, v ∈ out.seen) := by
  intro calls
  induction calls with
  | zero => intro pf st seen out h; simp [session] at h
  | succ n ih =>
    intro pf st seen out h
    rw [session] at h
    cases hf : find_next_solution sf pf st seen with
    | none => rw [hf] at h; simp at h
    | some r =>
      rw [hf] at h
      cases r with
      | crash seen' =>
        simp only [Option.some.injEq] at h
        subst h
        have := find_crash_seen hf
        subst this
        exact ⟨List.nodup_nil, by simp, by simp, by simp⟩
      | exhausted st2 seen' =>
        simp only [Option.some.injEq] at h
        subst h
        have := (find_exh hf).2
        subst this
        exact ⟨List.nodup_nil, by simp, by simp, by simp⟩
      | found qs c st' seen' fl =>
        simp only [Option.map_eq_some'] at h
        obtain ⟨out', hsess, hout⟩ := h
        obtain ⟨hnodup, hnot, hgrow, hsub⟩ := ih hsess
        obtain ⟨hqs_nmem, hseen'⟩ := find_found_seen hf
        subst hseen' hout
        have hmap : ((⟨(qs, c) :: out'.sols, out'.seen, out'.crashed⟩ : RunOut).sols.map
            Prod.fst) = qs :: out'.sols.map Prod.fst := by simp
        refine ⟨?_, ?_, ?_, ?_⟩
        · rw [hmap]
          exact List.nodup_cons.mpr
            ⟨fun hcontra => (hnot _ hcontra) (List.mem_cons_self _ _), hnodup⟩
        · intro v hv
          rw [hmap] at hv
          rcases List.mem_cons.mp hv with rfl | hv'
          · exact hqs_nmem
          · intro hvs; exact hnot v hv' (List.mem_cons_of_mem _ hvs)
        · intro v hv
          exact hgrow v (List.mem_cons_of_mem _ hv)
        · intro v hv
          rw [hmap] at hv
          rcases List.mem_cons.mp hv with rfl | hv'
          · exact hgrow v (List.mem_cons_self _ _)
          · exact hsub v hv'

/-- C9: within one session, once `find_next_solution` has returned the
no-more-solutions signal (`found = false`, i.e. `exhausted`), every
subsequent call on the resulting finder state returns the same
no-more-solutions signal with the state unchanged: the exhausted signal is
terminal. -/
theorem C9_exhausted_terminal {sf : SolutionFinder} {fuel st seen st' seen'}
    (h : find_next_solution sf fuel st seen = some (.exhausted st' seen'))
    {fuel' : ℕ} (h1 : 1 ≤ fuel') :
    find_next_solution sf fuel' st' seen' = some (.exhausted st' seen') := by
  obtain ⟨hst, -⟩ := find_exh h
  subst hst
  obtain ⟨k, rfl⟩ : ∃ k, fuel' = k + 1 := ⟨fuel' - 1, by omega⟩
  rfl

/-- C9 witness: a concrete exhausted session (empty catalog, interval
`[1,2]`) on which a repeated call again reports no more solutions. -/
theorem C9_witness :
    find_next_solution ⟨[], 1, 2, []⟩ 1 [] [] = some (.exhausted [] []) := by
  have h : find_next_solution ⟨[], 1, 2, []⟩ 2 [init_frame ⟨[], 1, 2, []⟩] [] =
      some (.exhausted [] []) := by
    norm_num [find_next_solution, init_frame, initial_quantities, initial_cost, dot,
      popStep, leaf_ok, constraints_sat]
  exact C9_exhausted_terminal h (le_refl 1)

/-- C3: the claim matches `calculate_max_quantity` (which returns the fixed
cap 100 at price zero, its comment saying it guards division by zero), but
`find_next_solution` never calls it: on a catalog whose only item has unit
price exactly 0 and no explicit constraint, the branching step divides
`(max_total - current_cost)` by the zero price and the call raises
`decimal.DivisionByZero` (modelled as `crash`) instead of capping the
range. -/
theorem C3_zero_price_crash :
    find_next_solution ⟨[0], 0, 10, []⟩ 2 [init_frame ⟨[0], 0, 10, []⟩] [] =
      some (.crash []) ∧ calculate_max_quantity 0 10 = 100 := by
  constructor
  · norm_num [find_next_solution, init_frame, initial_quantities, initial_cost, dot,
      popStep, crashes_at, lookupC]
  · norm_num [calculate_max_quantity]

/-- C7: across one session driven from `initialize_search` onward, the
quantity vectors returned by the repeated `find_next_solution` calls are
pairwise distinct — the `found_solutions` membership test filters every
repeat, whatever the catalog, constraints and interval are. -/
theorem C7_no_duplicates {sf : SolutionFinder} {calls popFuel seen0 out}
    (h : session sf calls popFuel [init_frame sf] seen0 = some out) :
    (out.sols.map Prod.fst).Nodup :=
  (session_props h).1

/-- C7 witness: the concrete session over catalog `[10]`, interval
`[10,10]` returns exactly the vector `[1]`, with no duplicate. -/
theorem C7_witness :
    ((([([1], (10 : ℚ))]) : List (List ℤ × ℚ)).map Prod.fst).Nodup := by
  have hd : descRange 1 0 = [1, 0] := by decide
  have h : session ⟨[10], 10, 10, []⟩ 2 4 [init_frame ⟨[10], 10, 10, []⟩] [] =
      some ⟨[([1], 10)], [[1]], false⟩ := by
    norm_num [session, find_next_solution, popStep, children, childU, lookupC,
      crashes_at, trunc_div, ratTrunc, hd, leaf_ok, constraints_sat,
      init_frame, initial_quantities, initial_cost, dot,
      List.filterMap_cons, List.filterMap_nil]
  exact C7_no_duplicates h

/-- C10: `initialize_search` resets the stack to the single initial
candidate state and leaves `found_solutions` untouched; every vector a
`find_next_solution` call returns is recorded in `found_solutions` at that
moment; and a session started by re-initialization never returns a vector
already present in `found_solutions` — hence never one returned before the
re-initialization. -/
theorem C10_reinit_no_repeats {sf : SolutionFinder} :
    (∀ fs, initialize_search sf fs = ⟨[init_frame sf], fs.found_solutions⟩) ∧
    (∀ {fuel st seen qs c st' seen' fl},
      find_next_solution sf fuel st seen = some (.found qs c st' seen' fl) →
      qs ∈ seen') ∧
    (∀ {st1 c2 p2 seen0 out2 v}, v ∈ seen0 →
      session sf c2 p2 (initialize_search sf ⟨st1, seen0⟩).stack
        (initialize_search sf ⟨st1, seen0⟩).found_solutions = some out2 →
      v ∉ out2.sols.map Prod.fst) := by
  refine ⟨fun fs => rfl, ?_, ?_⟩
  · intro fuel st seen qs c st' seen' fl h
    rw [(find_found_seen h).2]
    exact List.mem_cons_self _ _
  · intro st1 c2 p2 seen0 out2 v hv h hmem
    exact (session_props h).2.1 v hmem hv

/-- C10 witness: after a first session over catalog `[10]`, interval
`[10,10]` has returned `[1]`, re-initializing and searching again returns
nothing previously returned. -/
theorem C10_witness :
    initialize_search ⟨[10], 10, 10, []⟩ ⟨[], [[1]]⟩ =
      ⟨[init_frame ⟨[10], 10, 10, []⟩], [[1]]⟩ ∧
    ([1] : List ℤ) ∈ [[(1 : ℤ)]] ∧
    ([1] : List ℤ) ∉ (([] : List (List ℤ × ℚ)).map Prod.fst) := by
  have hd : descRange 1 0 = [1, 0] := by decide
  refine ⟨C10_reinit_no_repeats.1 ⟨[], [[1]]⟩, ?_, ?_⟩
  · refine C10_reinit_no_repeats.2.1
      (show find_next_solution ⟨[10], 10, 10, []⟩ 4 [init_frame ⟨[10], 10, 10, []⟩] [] =
        some (.found [1] 10 [] [[1]] 1) from ?_)
    norm_num [find_next_solution, popStep, children, childU, lookupC,
      crashes_at, trunc_div, ratTrunc, hd, leaf_ok, constraints_sat,
      init_frame, initial_quantities, initial_cost, dot,
      List.filterMap_cons, List.filterMap_nil]
  · refine C10_reinit_no_repeats.2.2 (show ([1] : List ℤ) ∈ [[(1 : ℤ)]] by simp)
      (show session ⟨[10], 10, 10, []⟩ 1 5
        (initialize_search ⟨[10], 10, 10, []⟩ ⟨[], [[1]]⟩).stack
        (initialize_search ⟨[10], 10, 10, []⟩ ⟨[], [[1]]⟩).found_solutions =
        some ⟨[], [[1]], false⟩ from ?_)
    norm_num [session, find_next_solution, popStep, children, childU, lookupC,
      crashes_at, trunc_div, ratTrunc, hd, leaf_ok, constraints_sat,
      init_frame, initial_quantities, initial_cost, dot, initialize_search,
      List.filterMap_cons, List.filterMap_nil]

theorem descRange_eq_nil {hi lo : ℤ} (h : hi < lo) : descRange hi lo = [] := by
  unfold descRange
  have h0 : (hi + 1 - lo).toNat = 0 := by omega
  rw [h0]
  rfl

theorem mem_descRange {hi lo q : ℤ} : q ∈ descRange hi lo ↔ lo ≤ q ∧ q ≤ hi := by
  unfold descRange
  simp only [List.mem_map, List.mem_range]
  constructor
  · rintro ⟨j, hj, rfl⟩
    omega
  · rintro ⟨h1, h2⟩
    exact ⟨(hi - q).toNat, by omega, by omega⟩

theorem lookupC_map_update {i : ℕ} {mn mx : ℤ} :
    ∀ tl : Constraints, tl.any (fun pc => pc.1 == i) = true →
      lookupC (tl.map (fun pc => if pc.1 == i then (i, ⟨mn, mx⟩) else pc)) i =
        some ⟨mn, mx⟩ := by
  intro tl
  induction tl with
  | nil => intro h; simp at h
  | cons hd tl ih =>
    intro h
    by_cases hj : hd.1 = i
    · simp [lookupC, hj, List.find?]
    · have hb : (hd.1 == i) = false := by simpa using hj
      have htl : tl.any (fun pc => pc.1 == i) = true := by simpa [hj] using h
      simp only [List.map_cons, hb, Bool.false_eq_true, if_false]
      simp only [lookupC, List.find?, hb]
      exact ih htl

theorem lookupC_append_new {i : ℕ} {mn mx : ℤ} :
    ∀ cs : Constraints, cs.any (fun pc => pc.1 == i) = false →
      lookupC (cs ++ [(i, ⟨mn, mx⟩)]) i = some ⟨mn, mx⟩ := by
  intro cs
  induction cs with
  | nil => intro _; simp [lookupC, List.find?]
  | cons hd tl ih =>
    intro h
    simp only [List.any_cons, Bool.or_eq_false_iff] at h
    simp only [List.cons_append, lookupC, List.find?]
    rw [h.1]
    exact ih h.2

theorem lookupC_set_constraint (cs : Constraints) (i : ℕ) (mn mx : ℤ) :
    lookupC (set_constraint cs i mn mx) i = some ⟨mn, mx⟩ := by
  unfold set_constraint
  by_cases h : cs.any (fun pc => pc.1 == i) = true
  · rw [if_pos h]
    exact lookupC_map_update cs h
  · rw [if_neg h]
    simp only [Bool.not_eq_true] at h
    exact lookupC_append_new cs h

/-- C5 counterexample: the invalid constraint `min 5 > max 2` on item 0 is
accepted and stored by `set_constraint` with no error signal of any kind,
and the engine then initializes and runs the search on that configuration
to normal exhaustion — nothing rejects the configuration before
initialization and the engine does begin search in that state. -/
theorem C5_counterexample :
    set_constraint [] 0 5 2 = [(0, ⟨5, 2⟩)] ∧
    (5 : ℤ) > 2 ∧
    (initialize_search ⟨[1], 0, 10, set_constraint [] 0 5 2⟩ ⟨[], []⟩).stack =
      [init_frame ⟨[1], 0, 10, set_constraint [] 0 5 2⟩] ∧
    find_next_solution ⟨[1], 0, 10, set_constraint [] 0 5 2⟩ 2
      [init_frame ⟨[1], 0, 10, set_constraint [] 0 5 2⟩] [] =
      some (.exhausted [] []) := by
  have hs : set_constraint [] 0 5 2 = [(0, ⟨5, 2⟩)] := by decide
  have hd : descRange 2 5 = [] := by decide
  refine ⟨hs, by decide, rfl, ?_⟩
  norm_num [find_next_solution, popStep, children, childC, lookupC, hs, hd,
    crashes_at, leaf_ok, constraints_sat, init_frame, initial_quantities,
    initial_cost, dot, List.filterMap_nil, List.find?]

/-- C5 amended: neither `set_constraint` nor the constructor validates its
arguments.  Any pair, including `min_qty > max_qty` or a negative bound, is
stored unchanged in the constraint table, `initialize_search` still seeds
the stack with the single initial candidate state (so the engine does begin
search in that state), and an inverted constraint merely produces an empty
choice range at its item, so such a session runs and finds nothing. -/
theorem C5_amended {cs : Constraints} {i : ℕ} {mn mx : ℤ} :
    lookupC (set_constraint cs i mn mx) i = some ⟨mn, mx⟩ ∧
    (∀ (sf : SolutionFinder) (fs : FinderState),
      (initialize_search sf fs).stack = [init_frame sf]) ∧
    (∀ (sf : SolutionFinder) (idx : ℕ) (qs : List ℤ) (c : ℚ) (cst : Constraint),
      lookupC sf.constraints idx = some cst → cst.max < cst.min →
      children sf idx qs c = []) := by
  refine ⟨lookupC_set_constraint cs i mn mx, fun sf fs => rfl, ?_⟩
  intro sf idx qs c cst hlk hlt
  unfold children
  rw [hlk]
  show List.filterMap (childC sf idx qs c) (descRange cst.max cst.min) = []
  rw [descRange_eq_nil hlt]
  rfl

/-- C5 witness: the amended statement applied to the concrete invalid
constraint `min 5 > max 2` on item 0 of a one-item catalog. -/
theorem C5_witness :
    lookupC (set_constraint [] 0 5 2) 0 = some ⟨5, 2⟩ ∧
    (initialize_search ⟨[1], 0, 10, []⟩ ⟨[], []⟩).stack =
      [init_frame ⟨[1], 0, 10, []⟩] ∧
    children ⟨[1], 0, 10, [(0, ⟨5, 2⟩)]⟩ 0 [5] 5 = [] :=
  ⟨(@C5_amended [] 0 5 2).1, (@C5_amended [] 0 5 2).2.1 _ _,
    (@C5_amended [] 0 5 2).2.2 _ 0 [5] 5 ⟨5, 2⟩ (by decide) (by decide)⟩

/-- C6 counterexample: with catalog prices `[10]` and the constraint
`min 2, max 3` on item 0, the state pushed by `initialize_search` onto the
stack is `(0, [2], 20)`: its undecided entry holds the constrained
minimum 2, not 0, and its running cost 20 is not the weighted sum over the
(empty) decided prefix — the spec's candidate-state invariant is false on a
state present on the stack. -/
theorem C6_counterexample :
    (initialize_search ⟨[10], 0, 100, [(0, ⟨2, 3⟩)]⟩ ⟨[], []⟩).stack =
      [init_frame ⟨[10], 0, 100, [(0, ⟨2, 3⟩)]⟩] ∧
    init_frame ⟨[10], 0, 100, [(0, ⟨2, 3⟩)]⟩ = ⟨0, [2], 20⟩ ∧
    ¬ spec_frame_inv ⟨[10], 0, 100, [(0, ⟨2, 3⟩)]⟩
        (init_frame ⟨[10], 0, 100, [(0, ⟨2, 3⟩)]⟩) := by
  have hq : init_frame ⟨[10], 0, 100, [(0, ⟨2, 3⟩)]⟩ = ⟨0, [2], 20⟩ := by
    norm_num [init_frame, initial_quantities, initial_cost, dot]
  refine ⟨rfl, hq, ?_⟩
  intro h
  have h0 := h.1 0 (by norm_num) (Nat.zero_le 0)
  rw [hq] at h0
  simp at h0

theorem getD_set_self {l : List ℤ} {i : ℕ} (h : i < l.length) (a : ℤ) :
    (l.set i a).getD i 0 = a := by
  induction l generalizing i with
  | nil => simp at h
  | cons x xs ih =>
    cases i with
    | zero => rfl
    | succ j => exact ih (by simpa using h)

theorem getD_set_ne {l : List ℤ} {i j : ℕ} (h : i ≠ j) (a : ℤ) :
    (l.set i a).getD j 0 = l.getD j 0 := by
  induction l generalizing i j with
  | nil => simp [List.set]
  | cons x xs ih =>
    cases i with
    | zero =>
      cases j with
      | zero => exact absurd rfl h
      | succ j' => rfl
    | succ i' =>
      cases j with
      | zero => rfl
      | succ j' => exact ih (fun hc => h (by rw [hc]))

theorem dot_eq_sum : ∀ (qs : List ℤ) (ps : List ℚ), qs.length = ps.length →
    dot qs ps = ∑ i ∈ Finset.range ps.length,
      ((qs.getD i 0 : ℤ) : ℚ) * ps.getD i 0 := by
  intro qs ps
  induction ps generalizing qs with
  | nil =>
    intro h
    simp [dot]
  | cons p pt ih =>
    intro h
    cases qs with
    | nil => simp at h
    | cons q qt =>
      have hlen : qt.length = pt.length := by simpa using h
      simp only [dot, List.zipWith_cons_cons, List.sum_cons, List.length_cons]
      rw [Finset.sum_range_succ']
      simp only [List.getD_cons_succ, List.getD_cons_zero]
      have hqt := ih qt hlen
      simp only [dot] at hqt
      rw [← hqt]
      ring

theorem defaultQty_some {sf : SolutionFinder} {idx : ℕ} {cst : Constraint}
    (h : lookupC sf.constraints idx = some cst) : defaultQty sf idx = cst.min := by
  unfold defaultQty
  rw [h]

theorem defaultQty_none {sf : SolutionFinder} {idx : ℕ}
    (h : lookupC sf.constraints idx = none) : defaultQty sf idx = 0 := by
  unfold defaultQty
  rw [h]

theorem mixCost_eq_dot {sf : SolutionFinder} {qs : List ℤ}
    (h : qs.length = sf.products.length) :
    mixCost sf sf.products.length qs = dot qs sf.products := by
  rw [dot_eq_sum qs sf.products h]
  unfold mixCost
  refine Finset.sum_congr rfl ?_
  intro i hi
  rw [if_pos (Finset.mem_range.mp hi)]

theorem mixCost_congr {sf : SolutionFinder} {idx : ℕ} {v w : List ℤ}
    (h : ∀ i, i < idx → v.getD i 0 = w.getD i 0) :
    mixCost sf idx v = mixCost sf idx w := by
  unfold mixCost
  refine Finset.sum_congr rfl ?_
  intro i _
  by_cases hlt : i < idx
  · rw [if_pos hlt, if_pos hlt, h i hlt]
  · rw [if_neg hlt, if_neg hlt]

theorem mixCost_step {sf : SolutionFinder} {idx : ℕ}
    (hlt : idx < sf.products.length) (v : List ℤ) :
    mixCost sf (idx + 1) v =
      mixCost sf idx v +
        (((v.getD idx 0 : ℤ) : ℚ) - ((defaultQty sf idx : ℤ) : ℚ)) *
          sf.products.getD idx 0 := by
  have hsub : mixCost sf (idx + 1) v - mixCost sf idx v =
      (((v.getD idx 0 : ℤ) : ℚ) - ((defaultQty sf idx : ℤ) : ℚ)) *
        sf.products.getD idx 0 := by
    unfold mixCost
    rw [← Finset.sum_sub_distrib]
    rw [Finset.sum_eq_single_of_mem idx (Finset.mem_range.mpr hlt)]
    · rw [if_pos (Nat.lt_succ_self idx), if_neg (lt_irrefl idx)]
      ring
    · intro b _ hb
      by_cases hbi : b < idx
      · rw [if_pos (Nat.lt_succ_of_lt hbi), if_pos hbi]; ring
      · have hb1 : ¬ b < idx + 1 := by omega
        rw [if_neg hb1, if_neg hbi]; ring
  linarith [hsub]

theorem mem_children_some {sf : SolutionFinder} {idx : ℕ} {qs : List ℤ} {c : ℚ}
    {cst : Constraint} {f : Frame} (hlk : lookupC sf.constraints idx = some cst) :
    f ∈ children sf idx qs c ↔ ∃ q : ℤ, cst.min ≤ q ∧ q ≤ cst.max ∧
      c + ((q : ℚ) - ((qs.getD idx 0 : ℤ) : ℚ)) * sf.products.getD idx 0 ≤
        sf.max_total ∧
      f = ⟨idx + 1, qs.set idx q,
        c + ((q : ℚ) - ((qs.getD idx 0 : ℤ) : ℚ)) * sf.products.getD idx 0⟩ := by
  unfold children
  rw [hlk]
  show f ∈ (descRange cst.max cst.min).filterMap (childC sf idx qs c) ↔ _
  simp only [List.mem_filterMap, mem_descRange]
  constructor
  · rintro ⟨q, ⟨hq1, hq2⟩, hf⟩
    simp only [childC] at hf
    split_ifs at hf with hle
    simp only [Option.some.injEq] at hf
    exact ⟨q, hq1, hq2, hle, hf.symm⟩
  · rintro ⟨q, h1, h2, h3, rfl⟩
    refine ⟨q, ⟨h1, h2⟩, ?_⟩
    simp only [childC]
    rw [if_pos h3]

theorem mem_children_none {sf : SolutionFinder} {idx : ℕ} {qs : List ℤ} {c : ℚ}
    {f : Frame} (hlk : lookupC sf.constraints idx = none) :
    f ∈ children sf idx qs c ↔ ∃ q : ℤ, 0 ≤ q ∧
      q ≤ trunc_div (sf.max_total - c) (sf.products.getD idx 0) ∧
      c + (q : ℚ) * sf.products.getD idx 0 ≤ sf.max_total ∧
      f = ⟨idx + 1, qs.set idx q, c + (q : ℚ) * sf.products.getD idx 0⟩ := by
  unfold children
  rw [hlk]
  show f ∈ (descRange _ 0).filterMap (childU sf idx qs c) ↔ _
  simp only [List.mem_filterMap, mem_descRange]
  constructor
  · rintro ⟨q, ⟨hq1, hq2⟩, hf⟩
    simp only [childU] at hf
    split_ifs at hf with hle
    simp only [Option.some.injEq] at hf
    exact ⟨q, hq1, hq2, hle, hf.symm⟩
  · rintro ⟨q, h1, h2, h3, rfl⟩
    refine ⟨q, ⟨h1, h2⟩, ?_⟩
    simp only [childU]
    rw [if_pos h3]

theorem children_idx {sf : SolutionFinder} {idx : ℕ} {qs : List ℤ} {c : ℚ} {f : Frame}
    (hf : f ∈ children sf idx qs c) :
    f.idx = idx + 1 ∧ ∃ q : ℤ, f.quantities = qs.set idx q := by
  cases hlk : lookupC sf.constraints idx with
  | some cst =>
    obtain ⟨q, -, -, -, rfl⟩ := (mem_children_some hlk).mp hf
    exact ⟨rfl, q, rfl⟩
  | none =>
    obtain ⟨q, -, -, -, rfl⟩ := (mem_children_none hlk).mp hf
    exact ⟨rfl, q, rfl⟩

theorem frame_inv_children {sf : SolutionFinder} {idx : ℕ} {qs : List ℤ} {c : ℚ}
    (hinv : frame_inv sf ⟨idx, qs, c⟩) (hlt : idx < sf.products.length)
    {f : Frame} (hf : f ∈ children sf idx qs c) : frame_inv sf f := by
  obtain ⟨hlen0, hle0, hsuf0, hcost0⟩ := hinv
  have hlen : qs.length = sf.products.length := hlen0
  have hsuf : ∀ i, i < sf.products.length → idx ≤ i →
      qs.getD i 0 = defaultQty sf i := hsuf0
  have hcost : c = mixCost sf idx qs := hcost0
  have hidxlen : idx < qs.length := by rw [hlen]; exact hlt
  cases hlk : lookupC sf.constraints idx with
  | some cst =>
    obtain ⟨q, hq1, hq2, hb, rfl⟩ := (mem_children_some hlk).mp hf
    have hcg : mixCost sf idx (qs.set idx q) = mixCost sf idx qs :=
      mixCost_congr (fun i hi => getD_set_ne (show idx ≠ i by omega) q)
    refine ⟨?_, ?_, ?_, ?_⟩
    · show (qs.set idx q).length = sf.products.length
      rw [List.length_set]
      exact hlen
    · show idx + 1 ≤ sf.products.length
      omega
    · show ∀ i, i < sf.products.length → idx + 1 ≤ i →
        (qs.set idx q).getD i 0 = defaultQty sf i
      intro i hi hge
      rw [getD_set_ne (show idx ≠ i by omega) q]
      exact hsuf i hi (by omega)
    · show c + ((q : ℚ) - ((qs.getD idx 0 : ℤ) : ℚ)) * sf.products.getD idx 0 =
        mixCost sf (idx + 1) (qs.set idx q)
      rw [mixCost_step hlt (qs.set idx q), getD_set_self hidxlen q, hcg, ← hcost,
        hsuf idx hlt (le_refl idx)]
  | none =>
    obtain ⟨q, hq1, hq2, hb, rfl⟩ := (mem_children_none hlk).mp hf
    have hcg : mixCost sf idx (qs.set idx q) = mixCost sf idx qs :=
      mixCost_congr (fun i hi => getD_set_ne (show idx ≠ i by omega) q)
    refine ⟨?_, ?_, ?_, ?_⟩
    · show (qs.set idx q).length = sf.products.length
      rw [List.length_set]
      exact hlen
    · show idx + 1 ≤ sf.products.length
      omega
    · show ∀ i, i < sf.products.length → idx + 1 ≤ i →
        (qs.set idx q).getD i 0 = defaultQty sf i
      intro i hi hge
      rw [getD_set_ne (show idx ≠ i by omega) q]
      exact hsuf i hi (by omega)
    · show c + (q : ℚ) * sf.products.getD idx 0 =
        mixCost sf (idx + 1) (qs.set idx q)
      rw [mixCost_step hlt (qs.set idx q), getD_set_self hidxlen q, hcg, ← hcost,
        defaultQty_none hlk]
      push_cast
      ring

theorem stack_inv_next {sf : SolutionFinder} {f rest seen st' seen'}
    (hall : ∀ g ∈ f :: rest, frame_inv sf g)
    (h : popStep sf f rest seen = .next st' seen') : ∀ g ∈ st', frame_inv sf g := by
  obtain ⟨-, hcase⟩ := popStep_next_char h
  rcases hcase with ⟨-, rfl⟩ | ⟨hne, -, rfl⟩
  · intro g hg
    exact hall g (List.mem_cons_of_mem _ hg)
  · intro g hg
    rcases List.mem_append.mp hg with hg1 | hg2
    · have hfinv := hall f (List.mem_cons_self _ _)
      have hlt : f.idx < sf.products.length := by
        have := hfinv.2.1
        omega
      exact frame_inv_children hfinv hlt (List.mem_reverse.mp hg1)
    · exact hall g (List.mem_cons_of_mem _ hg2)

theorem stack_inv_emit {sf : SolutionFinder} {f rest seen qs c st' seen'}
    (hall : ∀ g ∈ f :: rest, frame_inv sf g)
    (h : popStep sf f rest seen = .emit qs c st' seen') :
    (∀ g ∈ st', frame_inv sf g) ∧ leaf_ok sf qs c ∧
    qs.length = sf.products.length ∧ c = dot qs sf.products := by
  obtain ⟨hidx, hq, hc, hst, hleaf, -, -⟩ := popStep_emit_char h
  subst hq hc hst
  have hfinv := hall f (List.mem_cons_self _ _)
  refine ⟨fun g hg => hall g (List.mem_cons_of_mem _ hg), hleaf, hfinv.1, ?_⟩
  have hcost := hfinv.2.2.2
  rw [hcost, hidx, mixCost_eq_dot hfinv.1]

theorem foldl_set_length : ∀ (cs : Constraints) (qs0 : List ℤ),
    (cs.foldl (fun qs pc => qs.set pc.1 pc.2.min) qs0).length = qs0.length := by
  intro cs
  induction cs with
  | nil => intro qs0; rfl
  | cons hd tl ih =>
    intro qs0
    rw [List.foldl_cons, ih]
    exact List.length_set qs0 hd.1 hd.2.min

theorem initial_quantities_length {sf : SolutionFinder} :
    (initial_quantities sf).length = sf.products.length := by
  unfold initial_quantities
  rw [foldl_set_length]
  exact List.length_replicate _ _

theorem lookupC_none_of_not_mem {cs : Constraints} {i : ℕ}
    (h : i ∉ cs.map Prod.fst) : lookupC cs i = none := by
  unfold lookupC
  have hfind : cs.find? (fun pc => pc.1 == i) = none := by
    rw [List.find?_eq_none]
    intro pc hpc
    simp only [beq_iff_eq]
    rintro rfl
    exact h (List.mem_map_of_mem Prod.fst hpc)
  rw [hfind]
  rfl

theorem foldl_set_getD : ∀ (cs : Constraints) (qs0 : List ℤ),
    (cs.map Prod.fst).Nodup → (∀ pc ∈ cs, pc.1 < qs0.length) →
    ∀ i, i < qs0.length →
      (cs.foldl (fun qs pc => qs.set pc.1 pc.2.min) qs0).getD i 0 =
        (match lookupC cs i with
        | some cst => cst.min
        | none => qs0.getD i 0) := by
  intro cs
  induction cs with
  | nil =>
    intro qs0 _ _ i _
    simp [lookupC, List.find?]
  | cons hd tl ih =>
    intro qs0 hnd hrg i hi
    rw [List.map_cons, List.nodup_cons] at hnd
    have hnds := hnd
    rw [List.foldl_cons]
    have hrg' : ∀ pc ∈ tl, pc.1 < (qs0.set hd.1 hd.2.min).length := by
      intro pc hpc
      rw [List.length_set]
      exact hrg pc (List.mem_cons_of_mem _ hpc)
    rw [ih (qs0.set hd.1 hd.2.min) hnds.2 hrg' i (by rw [List.length_set]; exact hi)]
    by_cases hji : hd.1 = i
    · subst hji
      rw [lookupC_none_of_not_mem hnds.1]
      rw [getD_set_self (hrg hd (List.mem_cons_self _ _)) hd.2.min]
      have hcons : lookupC (hd :: tl) hd.1 = some hd.2 := by
        simp [lookupC, List.find?]
      rw [hcons]
    · have hcons : lookupC (hd :: tl) i = lookupC tl i := by
        unfold lookupC
        rw [List.find?_cons_of_neg]
        simpa using hji
      rw [hcons, getD_set_ne hji]

theorem initial_quantities_getD {sf : SolutionFinder}
    (hnd : (sf.constraints.map Prod.fst).Nodup)
    (hrg : ∀ pc ∈ sf.constraints, pc.1 < sf.products.length)
    {i : ℕ} (hi : i < sf.products.length) :
    (initial_quantities sf).getD i 0 = defaultQty sf i := by
  unfold initial_quantities
  rw [foldl_set_getD sf.constraints _ hnd
    (by intro pc hpc; rw [List.length_replicate]; exact hrg pc hpc) i
    (by rw [List.length_replicate]; exact hi)]
  unfold defaultQty
  cases lookupC sf.constraints i with
  | some cst => rfl
  | none =>
    rw [List.getD_eq_getElem?_getD, List.getElem?_replicate, if_pos hi]
    rfl

theorem init_frame_inv {sf : SolutionFinder}
    (hnd : (sf.constraints.map Prod.fst).Nodup)
    (hrg : ∀ pc ∈ sf.constraints, pc.1 < sf.products.length) :
    frame_inv sf (init_frame sf) := by
  refine ⟨initial_quantities_length, Nat.zero_le _, ?_, ?_⟩
  · intro i hi _
    exact initial_quantities_getD hnd hrg hi
  · show initial_cost sf = mixCost sf 0 (initial_quantities sf)
    unfold initial_cost
    rw [dot_eq_sum _ _ initial_quantities_length]
    unfold mixCost
    refine Finset.sum_congr rfl ?_
    intro i hi
    rw [if_neg (Nat.not_lt_zero i),
      initial_quantities_getD hnd hrg (Finset.mem_range.mp hi)]

theorem Reachable_inv {sf : SolutionFinder}
    (hnd : (sf.constraints.map Prod.fst).Nodup)
    (hrg : ∀ pc ∈ sf.constraints, pc.1 < sf.products.length)
    {st seen} (h : Reachable sf st seen) : ∀ f ∈ st, frame_inv sf f := by
  induction h with
  | init seen =>
    intro f hf
    rw [List.mem_singleton] at hf
    subst hf
    exact init_frame_inv hnd hrg
  | step_next hr hp ih => exact stack_inv_next ih hp
  | step_emit hr hp ih => exact (stack_inv_emit ih hp).1

theorem find_props {sf : SolutionFinder} :
    ∀ {fuel st seen qs c st' seen' fl},
    (∀ f ∈ st, frame_inv sf f) →
    find_next_solution sf fuel st seen = some (.found qs c st' seen' fl) →
    leaf_ok sf qs c ∧ qs.length = sf.products.length ∧ c = dot qs sf.products ∧
    (∀ f ∈ st', frame_inv sf f) := by
  intro fuel
  induction fuel with
  | zero => intro st seen qs c st' seen' fl _ h; simp [find_next_solution] at h
  | succ n ih =>
    intro st seen qs c st' seen' fl hall h
    cases st with
    | nil => simp [find_next_solution] at h
    | cons f rest =>
      rw [find_next_solution] at h
      cases hp : popStep sf f rest seen with
      | next st2 seen2 =>
        rw [hp] at h
        exact ih (stack_inv_next hall hp) h
      | emit qs2 c2 st2 seen2 =>
        rw [hp] at h
        simp only [Option.some.injEq, FindRes.found.injEq] at h
        obtain ⟨h1, h2, h3, h4, h5⟩ := h
        obtain ⟨hrest, hleaf, hlen, hdot⟩ := stack_inv_emit hall hp
        subst h1 h2 h3
        exact ⟨hleaf, hlen, hdot, hrest⟩
      | err seen2 => rw [hp] at h; simp at h

/-- C2: in any session state reachable from `initialize_search` (for a
constraint table with distinct, in-range item indices, as any Python
`dict` produced for this catalog gives), every solution returned by a
`find_next_solution` call satisfies `min_total ≤ total_cost ≤ max_total`
exactly, satisfies every explicit constraint, and its returned
`total_cost` equals the exact weighted sum of the whole quantity
vector. -/
theorem C2_solution_properties {sf : SolutionFinder}
    (hnd : (sf.constraints.map Prod.fst).Nodup)
    (hrg : ∀ pc ∈ sf.constraints, pc.1 < sf.products.length)
    {st seen fuel qs c st' seen' fl} (hreach : Reachable sf st seen)
    (h : find_next_solution sf fuel st seen = some (.found qs c st' seen' fl)) :
    (sf.min_total ≤ c ∧ c ≤ sf.max_total) ∧
    constraints_sat sf.constraints qs ∧
    c = dot qs sf.products := by
  obtain ⟨hleaf, hlen, hdot, -⟩ := find_props (Reachable_inv hnd hrg hreach) h
  exact ⟨⟨hleaf.1, hleaf.2.1⟩, hleaf.2.2, hdot⟩

/-- C2 witness: the solution `[1]` returned on catalog `[10]`, interval
`[10,10]` has its cost inside the interval, satisfies the (empty)
constraints, and costs exactly `dot [1] [10]`. -/
theorem C2_witness :
    ((10 : ℚ) ≤ 10 ∧ (10 : ℚ) ≤ 10) ∧ constraints_sat [] [1] ∧
    (10 : ℚ) = dot [1] [10] := by
  have hd : descRange 1 0 = [1, 0] := by decide
  have h : find_next_solution ⟨[10], 10, 10, []⟩ 4 [init_frame ⟨[10], 10, 10, []⟩] [] =
      some (.found [1] 10 [] [[1]] 1) := by
    norm_num [find_next_solution, popStep, children, childU, lookupC,
      crashes_at, trunc_div, ratTrunc, hd, leaf_ok, constraints_sat,
      init_frame, initial_quantities, initial_cost, dot,
      List.filterMap_cons, List.filterMap_nil]
  exact C2_solution_properties (by simp) (by simp) (Reachable.init []) h

/-- C6 amended: every candidate state ever present on the search stack has
a full-length vector, an in-range `next_item_index`, undecided entries
preset to the constrained minimum (or `0` for unconstrained items), and a
`running_cost` equal to the weighted sum of the decided entries plus the
preset minimum contributions of the undecided constrained entries
(`mixCost`) — not the spec's zero-suffix, prefix-only-cost invariant. -/
theorem C6_stack_invariant {sf : SolutionFinder}
    (hnd : (sf.constraints.map Prod.fst).Nodup)
    (hrg : ∀ pc ∈ sf.constraints, pc.1 < sf.products.length)
    {st seen} (hreach : Reachable sf st seen) :
    ∀ f ∈ st, frame_inv sf f :=
  Reachable_inv hnd hrg hreach

/-- C6 witness: the amended invariant holds of the initial state of the
session used in the counterexample. -/
theorem C6_witness :
    frame_inv ⟨[10], 0, 100, [(0, ⟨2, 3⟩)]⟩
      (init_frame ⟨[10], 0, 100, [(0, ⟨2, 3⟩)]⟩) :=
  C6_stack_invariant (by simp) (by decide) (Reachable.init []) _
    (List.mem_singleton.mpr rfl)

theorem find_found_run {sf : SolutionFinder} :
    ∀ {fuel st seen qs c st' seen' fl},
    find_next_solution sf fuel st seen = some (.found qs c st' seen' fl) →
    runAll sf fuel st seen =
      Option.map (fun out => ⟨(qs, c) :: out.sols, out.seen, out.crashed⟩)
        (runAll sf fl st' seen') := by
  intro fuel
  induction fuel with
  | zero => intro st seen qs c st' seen' fl h; simp [find_next_solution] at h
  | succ n ih =>
    intro st seen qs c st' seen' fl h
    cases st with
    | nil => simp [find_next_solution] at h
    | cons f rest =>
      rw [find_next_solution] at h
      rw [runAll]
      cases hp : popStep sf f rest seen with
      | next st2 seen2 => rw [hp] at h; exact ih h
      | emit qs2 c2 st2 seen2 =>
        rw [hp] at h
        simp only [Option.some.injEq, FindRes.found.injEq] at h
        obtain ⟨rfl, rfl, rfl, rfl, rfl⟩ := h
        rfl
      | err seen2 => rw [hp] at h; simp at h

theorem find_exh_run {sf : SolutionFinder} :
    ∀ {fuel st seen st' seen'},
    find_next_solution sf fuel st seen = some (.exhausted st' seen') →
    runAll sf fuel st seen = some ⟨[], seen', false⟩ := by
  intro fuel
  induction fuel with
  | zero => intro st seen st' seen' h; simp [find_next_solution] at h
  | succ n ih =>
    intro st seen st' seen' h
    cases st with
    | nil =>
      simp only [find_next_solution, Option.some.injEq, FindRes.exhausted.injEq] at h
      rw [show runAll sf (n+1) [] seen = some ⟨[], seen, false⟩ from rfl, h.2]
    | cons f rest =>
      rw [find_next_solution] at h
      rw [runAll]
      cases hp : popStep sf f rest seen with
      | next st2 seen2 => rw [hp] at h; exact ih h
      | emit qs2 c2 st2 seen2 => rw [hp] at h; simp at h
      | err seen2 => rw [hp] at h; simp at h

theorem find_crash_run {sf : SolutionFinder} :
    ∀ {fuel st seen seen'},
    find_next_solution sf fuel st seen = some (.crash seen') →
    runAll sf fuel st seen = some ⟨[], seen', true⟩ := by
  intro fuel
  induction fuel with
  | zero => intro st seen seen' h; simp [find_next_solution] at h
  | succ n ih =>
    intro st seen seen' h
    cases st with
    | nil => simp [find_next_solution] at h
    | cons f rest =>
      rw [find_next_solution] at h
      rw [runAll]
      cases hp : popStep sf f rest seen with
      | next st2 seen2 => rw [hp] at h; exact ih h
      | emit qs2 c2 st2 seen2 => rw [hp] at h; simp at h
      | err seen2 =>
        rw [hp] at h
        simp only [Option.some.injEq, FindRes.crash.injEq] at h
        rw [h]

theorem find_mono_found {sf : SolutionFinder} :
    ∀ {fuel st seen qs c st' seen' fl} (k : ℕ),
    find_next_solution sf fuel st seen = some (.found qs c st' seen' fl) →
    find_next_solution sf (fuel + k) st seen = some (.found qs c st' seen' (fl + k)) := by
  intro fuel
  induction fuel with
  | zero => intro st seen qs c st' seen' fl k h; simp [find_next_solution] at h
  | succ n ih =>
    intro st seen qs c st' seen' fl k h
    rw [show n + 1 + k = (n + k) + 1 from by omega]
    cases st with
    | nil => simp [find_next_solution] at h
    | cons f rest =>
      rw [find_next_solution] at h ⊢
      cases hp : popStep sf f rest seen with
      | next st2 seen2 => rw [hp] at h; exact ih k h
      | emit qs2 c2 st2 seen2 =>
        rw [hp] at h
        simp only [Option.some.injEq, FindRes.found.injEq] at h ⊢
        obtain ⟨h1, h2, h3, h4, h5⟩ := h
        exact ⟨h1, h2, h3, h4, by omega⟩
      | err seen2 => rw [hp] at h; simp at h

theorem find_mono_exh {sf : SolutionFinder} :
    ∀ {fuel st seen st' seen'} (k : ℕ),
    find_next_solution sf fuel st seen = some (.exhausted st' seen') →
    find_next_solution sf (fuel + k) st seen = some (.exhausted st' seen') := by
  intro fuel
  induction fuel with
  | zero => intro st seen st' seen' k h; simp [find_next_solution] at h
  | succ n ih =>
    intro st seen st' seen' k h
    rw [show n + 1 + k = (n + k) + 1 from by omega]
    cases st with
    | nil =>
      simp only [find_next_solution, Option.some.injEq] at h ⊢
      exact h
    | cons f rest =>
      rw [find_next_solution] at h ⊢
      cases hp : popStep sf f rest seen with
      | next st2 seen2 => rw [hp] at h; exact ih k h
      | emit qs2 c2 st2 seen2 => rw [hp] at h; simp at h
      | err seen2 => rw [hp] at h; simp at h

theorem find_mono_crash {sf : SolutionFinder} :
    ∀ {fuel st seen seen'} (k : ℕ),
    find_next_solution sf fuel st seen = some (.crash seen') →
    find_next_solution sf (fuel + k) st seen = some (.crash seen') := by
  intro fuel
  induction fuel with
  | zero => intro st seen seen' k h; simp [find_next_solution] at h
  | succ n ih =>
    intro st seen seen' k h
    rw [show n + 1 + k = (n + k) + 1 from by omega]
    cases st with
    | nil => simp [find_next_solution] at h
    | cons f rest =>
      rw [find_next_solution] at h ⊢
      cases hp : popStep sf f rest seen with
      | next st2 seen2 => rw [hp] at h; exact ih k h
      | emit qs2 c2 st2 seen2 => rw [hp] at h; simp at h
      | err seen2 => rw [hp] at h; exact h

theorem find_fl_lt {sf : SolutionFinder} :
    ∀ {fuel st seen qs c st' seen' fl},
    find_next_solution sf fuel st seen = some (.found qs c st' seen' fl) →
    fl < fuel := by
  intro fuel
  induction fuel with
  | zero => intro st seen qs c st' seen' fl h; simp [find_next_solution] at h
  | succ n ih =>
    intro st seen qs c st' seen' fl h
    cases st with
    | nil => simp [find_next_solution] at h
    | cons f rest =>
      rw [find_next_solution] at h
      cases hp : popStep sf f rest seen with
      | next st2 seen2 =>
        rw [hp] at h
        have := ih h
        omega
      | emit qs2 c2 st2 seen2 =>
        rw [hp] at h
        simp only [Option.some.injEq, FindRes.found.injEq] at h
        omega
      | err seen2 => rw [hp] at h; simp at h

theorem runAll_mono {sf : SolutionFinder} :
    ∀ {fuel st seen out} (k : ℕ),
    runAll sf fuel st seen = some out →
    runAll sf (fuel + k) st seen = some out := by
  intro fuel
  induction fuel with
  | zero => intro st seen out k h; simp [runAll] at h
  | succ n ih =>
    intro st seen out k h
    rw [show n + 1 + k = (n + k) + 1 from by omega]
    cases st with
    | nil =>
      simp only [runAll, Option.some.injEq] at h ⊢
      exact h
    | cons f rest =>
      rw [runAll] at h ⊢
      cases hp : popStep sf f rest seen with
      | next st2 seen2 => rw [hp] at h; exact ih k h
      | emit qs2 c2 st2 seen2 =>
        rw [hp] at h
        simp only [Option.map_eq_some'] at h ⊢
        obtain ⟨out', hrun, hout⟩ := h
        exact ⟨out', ih k hrun, hout⟩
      | err seen2 => rw [hp] at h; exact h

theorem session_mono {sf : SolutionFinder} :
    ∀ {calls pf st seen out} (k : ℕ),
    session sf calls pf st seen = some out →
    session sf calls (pf + k) st seen = some out := by
  intro calls
  induction calls with
  | zero => intro pf st seen out k h; simp [session] at h
  | succ n ih =>
    intro pf st seen out k h
    rw [session] at h ⊢
    cases hf : find_next_solution sf pf st seen with
    | none => rw [hf] at h; simp at h
    | some r =>
      rw [hf] at h
      cases r with
      | crash seen' => rw [find_mono_crash k hf]; exact h
      | exhausted st2 seen' => rw [find_mono_exh k hf]; exact h
      | found qs c st' seen' fl =>
        rw [find_mono_found k hf]
        simp only [Option.map_eq_some'] at h ⊢
        obtain ⟨out', hsess, hout⟩ := h
        exact ⟨out', ih k hsess, hout⟩

theorem session_to_runAll {sf : SolutionFinder} :
    ∀ {calls pf st seen out},
    session sf calls pf st seen = some out → out.crashed = false →
    ∃ fuel, runAll sf fuel st seen = some out := by
  intro calls
  induction calls with
  | zero => intro pf st seen out h _; simp [session] at h
  | succ n ih =>
    intro pf st seen out h hcr
    rw [session] at h
    cases hf : find_next_solution sf pf st seen with
    | none => rw [hf] at h; simp at h
    | some r =>
      rw [hf] at h
      cases r with
      | crash seen' =>
        simp only [Option.some.injEq] at h
        subst h
        simp at hcr
      | exhausted st2 seen' =>
        simp only [Option.some.injEq] at h
        subst h
        exact ⟨pf, find_exh_run hf⟩
      | found qs c st' seen' fl =>
        simp only [Option.map_eq_some'] at h
        obtain ⟨out', hsess, hout⟩ := h
        subst hout
        obtain ⟨g, hrun⟩ := ih hsess hcr
        refine ⟨pf + g, ?_⟩
        rw [find_found_run (find_mono_found g hf)]
        rw [show fl + g = g + fl from Nat.add_comm fl g, runAll_mono fl hrun]
        rfl

theorem runAll_decomp {sf : SolutionFinder} :
    ∀ {fuel st seen sols seenF},
    runAll sf fuel st seen = some ⟨sols, seenF, false⟩ →
    (sols = [] ∧ find_next_solution sf fuel st seen = some (.exhausted [] seenF)) ∨
    (∃ s rest st' seen' fl, sols = s :: rest ∧
      find_next_solution sf fuel st seen = some (.found s.1 s.2 st' seen' fl) ∧
      runAll sf fl st' seen' = some ⟨rest, seenF, false⟩) := by
  intro fuel
  induction fuel with
  | zero => intro st seen sols seenF h; simp [runAll] at h
  | succ n ih =>
    intro st seen sols seenF h
    cases st with
    | nil =>
      simp only [runAll, Option.some.injEq, RunOut.mk.injEq] at h
      obtain ⟨h1, h2, -⟩ := h
      refine Or.inl ⟨h1.symm, ?_⟩
      rw [show find_next_solution sf (n+1) [] seen = some (.exhausted [] seen) from rfl,
        h2]
    | cons f rest0 =>
      rw [runAll] at h
      cases hp : popStep sf f rest0 seen with
      | next st2 seen2 =>
        rw [hp] at h
        rcases ih h with ⟨h1, h2⟩ | ⟨s, rest, st', seen', fl, h1, h2, h3⟩
        · refine Or.inl ⟨h1, ?_⟩
          rw [find_next_solution, hp]
          exact h2
        · refine Or.inr ⟨s, rest, st', seen', fl, h1, ?_, h3⟩
          rw [find_next_solution, hp]
          exact h2
      | emit qs2 c2 st2 seen2 =>
        rw [hp] at h
        simp only [Option.map_eq_some'] at h
        obtain ⟨out', hrun, hout⟩ := h
        obtain ⟨sols', seen'', cr'⟩ := out'
        simp only [RunOut.mk.injEq] at hout
        obtain ⟨h1, h2, h3⟩ := hout
        refine Or.inr ⟨(qs2, c2), sols', st2, seen2, n, h1.symm, ?_, ?_⟩
        · rw [find_next_solution, hp]
        · rw [h2, h3] at hrun
          exact hrun
      | err seen2 =>
        rw [hp] at h
        simp only [Option.some.injEq, RunOut.mk.injEq] at h
        obtain ⟨-, -, h3⟩ := h
        cases h3
      
theorem runAll_to_session {sf : SolutionFinder} :
    ∀ {fuel st seen sols seenF},
    runAll sf fuel st seen = some ⟨sols, seenF, false⟩ →
    ∃ calls, session sf calls fuel st seen = some ⟨sols, seenF, false⟩ := by
  intro fuel
  induction fuel using Nat.strong_induction_on with
  | _ fuel ih =>
    intro st seen sols seenF h
    rcases runAll_decomp h with ⟨hnil, hfind⟩ | ⟨s, rest, st', seen', fl, hcons, hfind, hrun⟩
    · refine ⟨1, ?_⟩
      rw [session, hfind, hnil]
    · have hlt := find_fl_lt hfind
      obtain ⟨calls', hsess⟩ := ih fl hlt hrun
      have hsess' := session_mono (fuel - fl) hsess
      rw [show fl + (fuel - fl) = fuel from by omega] at hsess'
      refine ⟨calls' + 1, ?_⟩
      rw [session, hfind]
      show Option.map
          (fun out => (⟨(s.1, s.2) :: out.sols, out.seen, out.crashed⟩ : RunOut))
          (session sf calls' fuel st' seen') = some (⟨sols, seenF, false⟩ : RunOut)
      rw [hsess', hcons]
      rfl

theorem stackSize_cons {sf : SolutionFinder} (f : Frame) (st : List Frame) :
    stackSize sf (f :: st) =
      treeSize sf (sf.products.length - f.idx) f.idx f.quantities f.cost +
        stackSize sf st := by
  unfold stackSize
  rw [List.map_cons, List.sum_cons]

theorem stackSize_append {sf : SolutionFinder} (a b : List Frame) :
    stackSize sf (a ++ b) = stackSize sf a + stackSize sf b := by
  unfold stackSize
  rw [List.map_append, List.sum_append]

theorem stackSize_children {sf : SolutionFinder} {f : Frame}
    (hlt : f.idx < sf.products.length) :
    stackSize sf ((children sf f.idx f.quantities f.cost).reverse) + 1 =
      treeSize sf (sf.products.length - f.idx) f.idx f.quantities f.cost := by
  have hmap : (children sf f.idx f.quantities f.cost).reverse.map
      (fun g => treeSize sf (sf.products.length - g.idx) g.idx g.quantities g.cost) =
    (children sf f.idx f.quantities f.cost).reverse.map
      (fun g => treeSize sf (sf.products.length - (f.idx + 1)) g.idx g.quantities
        g.cost) := by
    refine List.map_congr_left ?_
    intro g hg
    rw [(children_idx (List.mem_reverse.mp hg)).1]
  have hk : sf.products.length - f.idx = (sf.products.length - (f.idx + 1)) + 1 := by
    omega
  rw [hk, treeSize]
  unfold stackSize
  rw [hmap]
  omega

theorem runAll_terminates {sf : SolutionFinder}
    (hok : ∀ i, i < sf.products.length → ¬ crashes_at sf i) :
    ∀ fuel st seen, (∀ f ∈ st, f.idx ≤ sf.products.length) →
    stackSize sf st < fuel →
    ∃ sols seenF, runAll sf fuel st seen = some ⟨sols, seenF, false⟩ := by
  intro fuel
  induction fuel with
  | zero => intro st seen _ hsz; omega
  | succ n ih =>
    intro st seen hwf hsz
    cases st with
    | nil => exact ⟨[], seen, rfl⟩
    | cons f rest =>
      rw [stackSize_cons] at hsz
      by_cases hidx : f.idx = sf.products.length
      · have ht1 : treeSize sf (sf.products.length - f.idx) f.idx f.quantities
            f.cost = 1 := by
          rw [hidx, Nat.sub_self]
          rfl
        rw [ht1] at hsz
        cases hp : popStep sf f rest seen with
        | next st2 seen2 =>
          obtain ⟨hseen, hcase⟩ := popStep_next_char hp
          rcases hcase with ⟨-, hst⟩ | ⟨hne, -, -⟩
          · obtain ⟨sols, seenF, hr⟩ :=
              ih rest seen (fun g hg => hwf g (List.mem_cons_of_mem _ hg)) (by omega)
            refine ⟨sols, seenF, ?_⟩
            rw [runAll, hp]
            show runAll sf n st2 seen2 = _
            rw [hst, hseen]
            exact hr
          · exact absurd hidx hne
        | emit qs c st2 seen2 =>
          obtain ⟨-, hq, hc, hst, -, -, hseen⟩ := popStep_emit_char hp
          obtain ⟨sols, seenF, hr⟩ := ih rest (f.quantities :: seen)
            (fun g hg => hwf g (List.mem_cons_of_mem _ hg)) (by omega)
          refine ⟨(qs, c) :: sols, seenF, ?_⟩
          rw [runAll, hp]
          show Option.map
            (fun out => (⟨(qs, c) :: out.sols, out.seen, out.crashed⟩ : RunOut))
            (runAll sf n st2 seen2) = _
          rw [hst, hseen, hr]
          rfl
        | err seen2 =>
          obtain ⟨-, hne, -⟩ := popStep_err_char hp
          exact absurd hidx hne
      · have hlt : f.idx < sf.products.length :=
          lt_of_le_of_ne (hwf f (List.mem_cons_self _ _)) hidx
        have hp : popStep sf f rest seen =
            .next ((children sf f.idx f.quantities f.cost).reverse ++ rest) seen := by
          unfold popStep
          rw [if_neg hidx, if_neg (hok f.idx hlt)]
        have hwf' : ∀ g ∈ (children sf f.idx f.quantities f.cost).reverse ++ rest,
            g.idx ≤ sf.products.length := by
          intro g hg
          rcases List.mem_append.mp hg with hg1 | hg2
          · rw [(children_idx (List.mem_reverse.mp hg1)).1]
            omega
          · exact hwf g (List.mem_cons_of_mem _ hg2)
        have hsz' : stackSize sf
            ((children sf f.idx f.quantities f.cost).reverse ++ rest) < n := by
          rw [stackSize_append]
          have hch := stackSize_children hlt
          omega
        obtain ⟨sols, seenF, hr⟩ := ih _ seen hwf' hsz'
        exact ⟨sols, seenF, by rw [runAll, hp]; exact hr⟩

/-- C8: when every item either has a strictly positive unit price or an
explicit constraint, a session's search space is finite: the engine's
stack empties after at most `stackSize` pops, so driving the repeated
`find_next_solution` calls from `initialize_search` reaches the
no-more-solutions signal (and never the division-by-zero failure) within a
finite number of calls and loop iterations. -/
theorem C8_finite_session {sf : SolutionFinder}
    (hterm : ∀ i, i < sf.products.length →
      0 < sf.products.getD i 0 ∨ (lookupC sf.constraints i).isSome)
    (seen0 : List (List ℤ)) :
    ∃ calls popFuel sols seenF,
      session sf calls popFuel [init_frame sf] seen0 = some ⟨sols, seenF, false⟩ := by
  have hok : ∀ i, i < sf.products.length → ¬ crashes_at sf i := by
    intro i hi hc
    obtain ⟨hlk, hp⟩ := hc
    rcases hterm i hi with h | h
    · rw [hp] at h
      exact lt_irrefl 0 h
    · rw [hlk] at h
      simp at h
  obtain ⟨sols, seenF, hrun⟩ := runAll_terminates hok
    (stackSize sf [init_frame sf] + 1) [init_frame sf] seen0
    (by
      intro f hf
      rw [List.mem_singleton] at hf
      subst hf
      exact Nat.zero_le _)
    (by omega)
  obtain ⟨calls, hs⟩ := runAll_to_session hrun
  exact ⟨calls, stackSize sf [init_frame sf] + 1, sols, seenF, hs⟩

/-- C8 witness: the concrete catalog `[10]` with interval `[10,10]` has a
strictly positive price, so its session provably exhausts in finitely many
calls. -/
theorem C8_witness :
    ∃ calls popFuel sols seenF,
      session ⟨[10], 10, 10, []⟩ calls popFuel [init_frame ⟨[10], 10, 10, []⟩] [] =
        some ⟨sols, seenF, false⟩ := by
  refine C8_finite_session ?_ []
  intro i hi
  left
  have h0 : i = 0 := by
    simp only [List.length_cons, List.length_nil] at hi
    omega
  subst h0
  norm_num [List.getD_cons_zero]

theorem popStep_next_leaf {sf : SolutionFinder} {f rest seen st' seen'}
    (hidx : f.idx = sf.products.length)
    (h : popStep sf f rest seen = .next st' seen') :
    st' = rest ∧ seen' = seen ∧
    (¬ leaf_ok sf f.quantities f.cost ∨ f.quantities ∈ seen) := by
  unfold popStep at h
  rw [if_pos hidx] at h
  split_ifs at h with h1 h2
  · cases h
    exact ⟨rfl, rfl, Or.inr h2⟩
  · cases h
    exact ⟨rfl, rfl, Or.inl h1⟩

theorem flatMap_congr {α β : Type _} :
    ∀ (l : List α) (f g : α → List β), (∀ a ∈ l, f a = g a) →
      l.flatMap f = l.flatMap g := by
  intro l f g
  induction l with
  | nil => intro _; rfl
  | cons x xs ih =>
    intro h
    simp only [List.flatMap_cons]
    rw [h x (List.mem_cons_self _ _), ih (fun a ha => h a (List.mem_cons_of_mem _ ha))]

theorem dedup_emit_mem {seen : List (List ℤ)} {qs : List ℤ} {c : ℚ}
    {l : List (List ℤ × ℚ)} (h : qs ∈ seen) :
    dedup_emit seen ((qs, c) :: l) = dedup_emit seen l := by
  conv =>
    lhs
    unfold dedup_emit
  rw [if_pos h]

theorem dedup_emit_not_mem {seen : List (List ℤ)} {qs : List ℤ} {c : ℚ}
    {l : List (List ℤ × ℚ)} (h : qs ∉ seen) :
    dedup_emit seen ((qs, c) :: l) =
      ((qs, c) :: (dedup_emit (qs :: seen) l).1, (dedup_emit (qs :: seen) l).2) := by
  conv =>
    lhs
    unfold dedup_emit
  rw [if_neg h]

theorem run_leaves {sf : SolutionFinder} :
    ∀ {fuel st seen sols seenF},
    (∀ f ∈ st, f.idx ≤ sf.products.length) →
    runAll sf fuel st seen = some ⟨sols, seenF, false⟩ →
    (sols, seenF) = dedup_emit seen (st.flatMap
      (fun f => leaves sf (sf.products.length - f.idx) f.idx f.quantities f.cost)) := by
  intro fuel
  induction fuel with
  | zero => intro st seen sols seenF _ h; simp [runAll] at h
  | succ n ih =>
    intro st seen sols seenF hwf h
    cases st with
    | nil =>
      simp only [runAll, Option.some.injEq, RunOut.mk.injEq] at h
      obtain ⟨h1, h2, -⟩ := h
      simp [← h1, ← h2, dedup_emit]
    | cons f rest =>
      rw [runAll] at h
      cases hp : popStep sf f rest seen with
      | next st2 seen2 =>
        rw [hp] at h
        by_cases hidx : f.idx = sf.products.length
        · obtain ⟨hst, hseen, hskip⟩ := popStep_next_leaf hidx hp
          have hres := ih (by
            intro g hg
            exact hwf g (List.mem_cons_of_mem _ (hst ▸ hg))) (hseen ▸ h)
          rw [List.flatMap_cons]
          have hk0 : sf.products.length - f.idx = 0 := by omega
          rw [hk0]
          rcases hskip with hnl | hdup
          · rw [show leaves sf 0 f.idx f.quantities f.cost = [] from by
              simp only [leaves, if_neg hnl]]
            simpa [hst] using hres
          · by_cases hok : leaf_ok sf f.quantities f.cost
            · rw [show leaves sf 0 f.idx f.quantities f.cost =
                  [(f.quantities, f.cost)] from by simp only [leaves, if_pos hok]]
              rw [List.singleton_append, dedup_emit_mem hdup]
              simpa [hst] using hres
            · rw [show leaves sf 0 f.idx f.quantities f.cost = [] from by
                simp only [leaves, if_neg hok]]
              simpa [hst] using hres
        · obtain ⟨hseen, hcase⟩ := popStep_next_char hp
          rcases hcase with ⟨habs, -⟩ | ⟨-, -, hst⟩
          · exact absurd habs hidx
          · have hlt : f.idx < sf.products.length :=
              lt_of_le_of_ne (hwf f (List.mem_cons_self _ _)) hidx
            have hwf' : ∀ g ∈ st2, g.idx ≤ sf.products.length := by
              intro g hg
              rw [hst] at hg
              rcases List.mem_append.mp hg with hg1 | hg2
              · rw [(children_idx (List.mem_reverse.mp hg1)).1]
                omega
              · exact hwf g (List.mem_cons_of_mem _ hg2)
            have hres := ih hwf' (hseen ▸ h)
            rw [hst] at hres
            rw [List.flatMap_cons]
            have hk : sf.products.length - f.idx =
                (sf.products.length - (f.idx + 1)) + 1 := by omega
            rw [hk]
            rw [show leaves sf ((sf.products.length - (f.idx + 1)) + 1) f.idx
                f.quantities f.cost =
              ((children sf f.idx f.quantities f.cost).reverse).flatMap
                (fun g => leaves sf (sf.products.length - (f.idx + 1)) g.idx
                  g.quantities g.cost) from by simp only [leaves]]
            rw [List.flatMap_append] at hres
            rw [flatMap_congr _ _ (fun g => leaves sf (sf.products.length - g.idx)
              g.idx g.quantities g.cost) (fun g hg => by
                have hgidx := (children_idx (List.mem_reverse.mp hg)).1
                show leaves sf (sf.products.length - (f.idx + 1)) g.idx g.quantities
                    g.cost =
                  leaves sf (sf.products.length - g.idx) g.idx g.quantities g.cost
                rw [hgidx])]
            exact hres
      | emit qs c st2 seen2 =>
        rw [hp] at h
        simp only [Option.map_eq_some'] at h
        obtain ⟨out', hrun, hout⟩ := h
        obtain ⟨sols', seen'', cr'⟩ := out'
        simp only [RunOut.mk.injEq] at hout
        obtain ⟨h1, h2, h3⟩ := hout
        obtain ⟨hidx, hq, hc, hst, hok, hmem, hseen⟩ := popStep_emit_char hp
        rw [hst, hseen, h3] at hrun
        have hwfrest : ∀ g ∈ rest, g.idx ≤ sf.products.length :=
          fun g hg => hwf g (List.mem_cons_of_mem _ hg)
        have hres := ih hwfrest hrun
        rw [List.flatMap_cons]
        have hk0 : sf.products.length - f.idx = 0 := by omega
        rw [hk0]
        rw [show leaves sf 0 f.idx f.quantities f.cost =
            [(f.quantities, f.cost)] from by simp only [leaves, if_pos hok]]
        rw [List.singleton_append, dedup_emit_not_mem hmem]
        rw [← h1, ← h2, hq, hc]
        rw [← hres]
      | err seen2 =>
        rw [hp] at h
        simp only [Option.some.injEq, RunOut.mk.injEq] at h
        obtain ⟨-, -, h3⟩ := h
        cases h3

theorem leaves_len {sf : SolutionFinder} :
    ∀ {k idx qs c v cv}, (v, cv) ∈ leaves sf k idx qs c → v.length = qs.length := by
  intro k
  induction k with
  | zero =>
    intro idx qs c v cv h
    simp only [leaves] at h
    split_ifs at h with h1
    · simp only [List.mem_singleton, Prod.mk.injEq] at h
      rw [h.1]
    · simp at h
  | succ n ih =>
    intro idx qs c v cv h
    simp only [leaves, List.mem_flatMap] at h
    obtain ⟨g, hg, hv⟩ := h
    obtain ⟨hgidx, q, hgq⟩ := children_idx (List.mem_reverse.mp hg)
    rw [ih hv, hgq, List.length_set]

theorem leaves_agree {sf : SolutionFinder} :
    ∀ {k idx qs c v cv}, (v, cv) ∈ leaves sf k idx qs c →
      ∀ i, i < idx → v.getD i 0 = qs.getD i 0 := by
  intro k
  induction k with
  | zero =>
    intro idx qs c v cv h i hi
    simp only [leaves] at h
    split_ifs at h with h1
    · simp only [List.mem_singleton, Prod.mk.injEq] at h
      rw [h.1]
    · simp at h
  | succ n ih =>
    intro idx qs c v cv h i hi
    simp only [leaves, List.mem_flatMap] at h
    obtain ⟨g, hg, hv⟩ := h
    obtain ⟨hgidx, q, hgq⟩ := children_idx (List.mem_reverse.mp hg)
    have hrec := ih hv i (by rw [hgidx]; omega)
    rw [hrec, hgq, getD_set_ne (show idx ≠ i by omega)]

theorem lookupC_mem {cs : Constraints} {i : ℕ} {cst : Constraint}
    (h : lookupC cs i = some cst) : (i, cst) ∈ cs := by
  unfold lookupC at h
  cases hf : cs.find? (fun pc => pc.1 == i) with
  | none => rw [hf] at h; cases h
  | some pc =>
    rw [hf] at h
    simp only [Option.map_some', Option.some.injEq] at h
    have hmem := List.mem_of_find?_eq_some hf
    have hpred := List.find?_some hf
    have h1 : pc.1 = i := by simpa using hpred
    have h2 : pc = (i, cst) := by
      obtain ⟨a, b⟩ := pc
      simp only [Prod.mk.injEq]
      exact ⟨h1, h⟩
    rw [← h2]
    exact hmem

theorem getD_mem_of_lt {α : Type _} :
    ∀ (l : List α) (j : ℕ) (d : α), j < l.length → l.getD j d ∈ l := by
  intro l
  induction l with
  | nil => intro j d h; simp at h
  | cons x xs ih =>
    intro j d h
    cases j with
    | zero => simp [List.getD_cons_zero]
    | succ j' =>
      rw [List.getD_cons_succ]
      exact List.mem_cons_of_mem _ (ih j' d (by simpa using h))

theorem getD_price_pos {sf : SolutionFinder} (hpos : ∀ p ∈ sf.products, 0 < p)
    {j : ℕ} (hj : j < sf.products.length) : 0 < sf.products.getD j 0 :=
  hpos _ (getD_mem_of_lt sf.products j 0 hj)

theorem le_ratTrunc_of_le {q : ℤ} {x : ℚ} (hq : 0 ≤ q) (hx : (q : ℚ) ≤ x) :
    q ≤ ratTrunc x := by
  unfold ratTrunc
  rw [if_pos (le_trans (by exact_mod_cast hq) hx)]
  exact Int.le_floor.mpr hx

theorem list_ext_getD : ∀ (v w : List ℤ), v.length = w.length →
    (∀ i, i < v.length → v.getD i 0 = w.getD i 0) → v = w := by
  intro v
  induction v with
  | nil =>
    intro w hlen _
    cases w with
    | nil => rfl
    | cons y ys => simp at hlen
  | cons x xs ih =>
    intro w hlen h
    cases w with
    | nil => simp at hlen
    | cons y ys =>
      have hx := h 0 (by simp)
      simp only [List.getD_cons_zero] at hx
      have hys := ih ys (by simpa using hlen) (fun i hi => by
        have hh := h (i + 1) (by simpa using Nat.succ_lt_succ hi)
        simpa [List.getD_cons_succ] using hh)
      rw [hx, hys]

theorem mixCost_le_of_feasible {sf : SolutionFinder}
    (hpos : ∀ p ∈ sf.products, 0 < p) {v : List ℤ}
    (hsat : constraints_sat sf.constraints v)
    (hnn : ∀ i, i < sf.products.length → lookupC sf.constraints i = none →
      0 ≤ v.getD i 0) :
    ∀ (d j : ℕ), j + d = sf.products.length →
      mixCost sf j v ≤ mixCost sf sf.products.length v := by
  intro d
  induction d with
  | zero =>
    intro j hj
    rw [show j = sf.products.length from by omega]
  | succ m ih =>
    intro j hj
    have hjl : j < sf.products.length := by omega
    have hstep : mixCost sf j v ≤ mixCost sf (j + 1) v := by
      rw [mixCost_step hjl v]
      have hterm : 0 ≤ (((v.getD j 0 : ℤ) : ℚ) - ((defaultQty sf j : ℤ) : ℚ)) *
          sf.products.getD j 0 := by
        apply mul_nonneg
        · cases hlk : lookupC sf.constraints j with
          | some cst =>
            rw [defaultQty_some hlk]
            have hs := hsat (j, cst) (lookupC_mem hlk)
            simp only [sub_nonneg]
            exact_mod_cast hs.1
          | none =>
            rw [defaultQty_none hlk]
            have := hnn j hjl hlk
            simp only [Int.cast_zero, sub_zero]
            exact_mod_cast this
        · exact le_of_lt (getD_price_pos hpos hjl)
      linarith
    exact le_trans hstep (ih (j + 1) (by omega))

theorem leaves_sound {sf : SolutionFinder} :
    ∀ {k idx qs c v cv}, frame_inv sf ⟨idx, qs, c⟩ → idx + k = sf.products.length →
      (v, cv) ∈ leaves sf k idx qs c →
      v.length = sf.products.length ∧ cv = dot v sf.products ∧ leaf_ok sf v cv ∧
      (∀ i, idx ≤ i → i < sf.products.length → lookupC sf.constraints i = none →
        0 ≤ v.getD i 0) := by
  intro k
  induction k with
  | zero =>
    intro idx qs c v cv hinv hkn h
    have hlen : qs.length = sf.products.length := hinv.1
    have hcost : c = mixCost sf idx qs := hinv.2.2.2
    have hidx : idx = sf.products.length := by omega
    simp only [leaves] at h
    split_ifs at h with h1
    · simp only [List.mem_singleton, Prod.mk.injEq] at h
      obtain ⟨hv, hcv⟩ := h
      subst hv hcv
      refine ⟨hlen, ?_, h1, ?_⟩
      · rw [hcost, hidx, mixCost_eq_dot hlen]
      · intro i hge hi _
        omega
    · simp at h
  | succ n ih =>
    intro idx qs c v cv hinv hkn h
    have hlen : qs.length = sf.products.length := hinv.1
    have hlt : idx < sf.products.length := by omega
    simp only [leaves, List.mem_flatMap] at h
    obtain ⟨g, hg, hv⟩ := h
    have hgmem := List.mem_reverse.mp hg
    have hchild : frame_inv sf ⟨g.idx, g.quantities, g.cost⟩ :=
      frame_inv_children hinv hlt hgmem
    obtain ⟨hgidx, q0, hgq⟩ := children_idx hgmem
    have hrec := ih hchild (by rw [hgidx]; omega) hv
    refine ⟨hrec.1, hrec.2.1, hrec.2.2.1, ?_⟩
    intro i hge hi hlk
    by_cases hii : i = idx
    · subst hii
      obtain ⟨q, hq0, hqle, hb, hgeq⟩ := (mem_children_none hlk).mp hgmem
    
      have hagree := leaves_agree hv i (by rw [hgidx]; omega)
      rw [hagree, hgeq]
      show 0 ≤ (qs.set i q).getD i 0
      rw [getD_set_self (by omega) q]
      exact hq0
    · exact hrec.2.2.2 i (by rw [hgidx]; omega) hi hlk

theorem leaves_complete {sf : SolutionFinder} :
    ∀ {k idx qs c} (v : List ℤ), frame_inv sf ⟨idx, qs, c⟩ →
      idx + k = sf.products.length →
      (∀ p ∈ sf.products, 0 < p) →
      v.length = sf.products.length →
      (∀ i, i < idx → v.getD i 0 = qs.getD i 0) →
      leaf_ok sf v (dot v sf.products) →
      (∀ i, i < sf.products.length → lookupC sf.constraints i = none →
        0 ≤ v.getD i 0) →
      (v, dot v sf.products) ∈ leaves sf k idx qs c := by
  intro k
  induction k with
  | zero =>
    intro idx qs c v hinv hkn hpos hvlen hagree hleaf hnn
    have hlen : qs.length = sf.products.length := hinv.1
    have hcost : c = mixCost sf idx qs := hinv.2.2.2
    have hidx : idx = sf.products.length := by omega
    have hveq : v = qs := list_ext_getD v qs (by omega) (fun i hi => hagree i (by omega))
    have hceq : c = dot v sf.products := by
      rw [hcost, hidx, ← hveq, mixCost_eq_dot (hveq ▸ hlen)]
    simp only [leaves]
    rw [if_pos (show leaf_ok sf qs c from by rw [← hveq, hceq]; exact hleaf)]
    simp only [List.mem_singleton, Prod.mk.injEq]
    exact ⟨hveq, hceq.symm⟩
  | succ n ih =>
    intro idx qs c v hinv hkn hpos hvlen hagree hleaf hnn
    have hlen : qs.length = sf.products.length := hinv.1
    have hsuf : ∀ i, i < sf.products.length → idx ≤ i →
        qs.getD i 0 = defaultQty sf i := hinv.2.2.1
    have hcost : c = mixCost sf idx qs := hinv.2.2.2
    have hlt : idx < sf.products.length := by omega
    have hidxq : idx < qs.length := by omega
    have hsat : constraints_sat sf.constraints v := hleaf.2.2
    have hcv : c = mixCost sf idx v := by
      rw [hcost]
      exact mixCost_congr (fun i hi => (hagree i hi).symm)
    have hdotle : mixCost sf (idx + 1) v ≤ sf.max_total := by
      have hchain := mixCost_le_of_feasible hpos hsat hnn
        (sf.products.length - (idx + 1)) (idx + 1) (by omega)
      rw [mixCost_eq_dot hvlen] at hchain
      linarith [hleaf.2.1]
    cases hlk : lookupC sf.constraints idx with
    | some cst =>
      have hsatidx := hsat (idx, cst) (lookupC_mem hlk)
      have hqsidx : qs.getD idx 0 = cst.min := by
        have hh := hsuf idx hlt (le_refl idx)
        rwa [defaultQty_some hlk] at hh
      have hnc : c + (((v.getD idx 0 : ℤ) : ℚ) - ((qs.getD idx 0 : ℤ) : ℚ)) *
          sf.products.getD idx 0 = mixCost sf (idx + 1) v := by
        rw [mixCost_step hlt v, hcv, hqsidx, defaultQty_some hlk]
      have hchild : (⟨idx + 1, qs.set idx (v.getD idx 0),
          c + (((v.getD idx 0 : ℤ) : ℚ) - ((qs.getD idx 0 : ℤ) : ℚ)) *
            sf.products.getD idx 0⟩ : Frame) ∈ children sf idx qs c := by
        refine (mem_children_some hlk).mpr
          ⟨v.getD idx 0, hsatidx.1, hsatidx.2, ?_, rfl⟩
        rw [hnc]
        exact hdotle
      simp only [leaves, List.mem_flatMap]
      refine ⟨_, List.mem_reverse.mpr hchild, ?_⟩
      show (v, dot v sf.products) ∈ leaves sf n (idx + 1)
        (qs.set idx (v.getD idx 0))
        (c + (((v.getD idx 0 : ℤ) : ℚ) - ((qs.getD idx 0 : ℤ) : ℚ)) *
          sf.products.getD idx 0)
      refine ih v (frame_inv_children hinv hlt hchild) (by omega) hpos hvlen ?_
        hleaf hnn
      intro i hi
      by_cases hii : i = idx
      · subst hii
        rw [getD_set_self hidxq]
      · rw [getD_set_ne (fun hc => hii hc.symm)]
        exact hagree i (by omega)
    | none =>
      have hp : 0 < sf.products.getD idx 0 := getD_price_pos hpos hlt
      have hq0 : 0 ≤ v.getD idx 0 := hnn idx hlt hlk
      have hnc : c + ((v.getD idx 0 : ℤ) : ℚ) * sf.products.getD idx 0 =
          mixCost sf (idx + 1) v := by
        rw [mixCost_step hlt v, hcv, defaultQty_none hlk]
        push_cast
        ring
      have hble : c + ((v.getD idx 0 : ℤ) : ℚ) * sf.products.getD idx 0 ≤
          sf.max_total := by
        rw [hnc]
        exact hdotle
      have hqle : v.getD idx 0 ≤
          trunc_div (sf.max_total - c) (sf.products.getD idx 0) := by
        unfold trunc_div
        apply le_ratTrunc_of_le hq0
        rw [le_div_iff hp]
        linarith [hble]
      have hchild : (⟨idx + 1, qs.set idx (v.getD idx 0),
          c + ((v.getD idx 0 : ℤ) : ℚ) * sf.products.getD idx 0⟩ : Frame) ∈
          children sf idx qs c :=
        (mem_children_none hlk).mpr ⟨v.getD idx 0, hq0, hqle, hble, rfl⟩
      simp only [leaves, List.mem_flatMap]
      refine ⟨_, List.mem_reverse.mpr hchild, ?_⟩
      show (v, dot v sf.products) ∈ leaves sf n (idx + 1)
        (qs.set idx (v.getD idx 0))
        (c + ((v.getD idx 0 : ℤ) : ℚ) * sf.products.getD idx 0)
      refine ih v (frame_inv_children hinv hlt hchild) (by omega) hpos hvlen ?_
        hleaf hnn
      intro i hi
      by_cases hii : i = idx
      · subst hii
        rw [getD_set_self hidxq]
      · rw [getD_set_ne (fun hc => hii hc.symm)]
        exact hagree i (by omega)

theorem dedup_sublist : ∀ {L : List (List ℤ × ℚ)} (seen : List (List ℤ)),
    ((dedup_emit seen L).1).Sublist L := by
  intro L
  induction L with
  | nil =>
    intro seen
    simp [dedup_emit]
  | cons p rest ih =>
    intro seen
    obtain ⟨qs, c⟩ := p
    by_cases hm : qs ∈ seen
    · rw [dedup_emit_mem hm]
      exact (ih seen).cons _
    · rw [dedup_emit_not_mem hm]
      exact (ih (qs :: seen)).cons₂ _

theorem dedup_fst {v : List ℤ} :
    ∀ {L : List (List ℤ × ℚ)} {seen : List (List ℤ)},
    (∃ c, (v, c) ∈ (dedup_emit seen L).1) ↔ (∃ c, (v, c) ∈ L) ∧ v ∉ seen := by
  intro L
  induction L with
  | nil =>
    intro seen
    simp [dedup_emit]
  | cons p rest ih =>
    intro seen
    obtain ⟨qs, c⟩ := p
    by_cases hm : qs ∈ seen
    · rw [dedup_emit_mem hm, ih]
      constructor
      · rintro ⟨⟨c', hc'⟩, hns⟩
        exact ⟨⟨c', List.mem_cons_of_mem _ hc'⟩, hns⟩
      · rintro ⟨⟨c', hc'⟩, hns⟩
        rcases List.mem_cons.mp hc' with h | h
        · exfalso
          have hvq : v = qs := congrArg Prod.fst h
          exact hns (hvq ▸ hm)
        · exact ⟨⟨c', h⟩, hns⟩
    · rw [dedup_emit_not_mem hm]
      by_cases hv : v = qs
      · subst hv
        constructor
        · intro _
          exact ⟨⟨c, List.mem_cons_self _ _⟩, hm⟩
        · intro _
          exact ⟨c, List.mem_cons_self _ _⟩
      · constructor
        · rintro ⟨c', hc'⟩
          rcases List.mem_cons.mp hc' with h | h
          · exact absurd (congrArg Prod.fst h) hv
          · obtain ⟨⟨c2, h2⟩, hns⟩ := ih.mp ⟨c', h⟩
            refine ⟨⟨c2, List.mem_cons_of_mem _ h2⟩, ?_⟩
            intro hvs
            exact hns (List.mem_cons_of_mem _ hvs)
        · rintro ⟨⟨c', hc'⟩, hns⟩
          rcases List.mem_cons.mp hc' with h | h
          · exact absurd (congrArg Prod.fst h) hv
          · obtain ⟨c2, h2⟩ := ih.mpr ⟨⟨c', h⟩, by
              intro hvs
              rcases List.mem_cons.mp hvs with h3 | h3
              · exact hv h3
              · exact hns h3⟩
            exact ⟨c2, List.mem_cons_of_mem _ h2⟩

/-- C1 counterexample: on the catalog `[10]` with the valid interval
`[-10, -10]` (strictly positive price, `min_total ≤ max_total`), the vector
`[-1]` is in the claimed solution set (its exact total `-10` lies in the
interval, and there are no constraints), yet the full session exhausts
crash-free having returned no solution at all: the returned set is a strict
subset of the claimed one, because the engine only enumerates non-negative
quantities for unconstrained items. -/
theorem C1_counterexample :
    (∀ p ∈ (⟨[10], -10, -10, []⟩ : SolutionFinder).products, 0 < p) ∧
    (⟨[10], -10, -10, []⟩ : SolutionFinder).min_total ≤
      (⟨[10], -10, -10, []⟩ : SolutionFinder).max_total ∧
    spec_feasible ⟨[10], -10, -10, []⟩ [-1] ∧
    session ⟨[10], -10, -10, []⟩ 1 3 [init_frame ⟨[10], -10, -10, []⟩] [] =
      some ⟨[], [], false⟩ := by
  refine ⟨?_, ?_, ?_, ?_⟩
  · intro p hp
    rcases List.mem_singleton.mp hp with rfl
    norm_num
  · norm_num
  · refine ⟨rfl, ?_, ?_, ?_⟩
    · norm_num [dot]
    · norm_num [dot]
    · intro pc hpc
      simp at hpc
  · norm_num [session, find_next_solution, init_frame, initial_quantities,
      initial_cost, dot, popStep, children, lookupC, crashes_at, trunc_div,
      ratTrunc, descRange, childU, leaf_ok, constraints_sat, List.filterMap]

/-- C1 (amended): for strictly positive unit prices, with the constraint
dict faithful (distinct keys, keys in catalog range), any complete
crash-free session driven from `initialize_search` with an empty
`found_solutions` returns, as the first components of its solutions,
exactly the vectors of catalog length whose exact weighted total lies in
`[min_total, max_total]`, whose constrained entries lie in their declared
`[min, max]` — and, beyond the claim, whose unconstrained entries are
non-negative: the engine never enumerates negative quantities, so the
claimed set equality only holds after restricting the right-hand side to
non-negative unconstrained entries. -/
theorem C1_solution_set {sf : SolutionFinder}
    (hpos : ∀ p ∈ sf.products, 0 < p)
    (hnd : (sf.constraints.map Prod.fst).Nodup)
    (hrg : ∀ pc ∈ sf.constraints, pc.1 < sf.products.length)
    {calls popFuel out}
    (h : session sf calls popFuel [init_frame sf] [] = some out)
    (hcr : out.crashed = false) :
    ∀ v, (∃ c, (v, c) ∈ out.sols) ↔ spec_feasible_nonneg sf v := by
  obtain ⟨sols, seenC, crashed⟩ := out
  have hcr' : crashed = false := hcr
  subst hcr'
  obtain ⟨fuel, hrun⟩ := session_to_runAll h rfl
  have hwf : ∀ f ∈ [init_frame sf], f.idx ≤ sf.products.length := by
    intro f hf
    rw [List.mem_singleton] at hf
    subst hf
    exact Nat.zero_le _
  have hsim := run_leaves hwf hrun
  have hL : [init_frame sf].flatMap
      (fun f => leaves sf (sf.products.length - f.idx) f.idx f.quantities f.cost) =
      leaves sf sf.products.length 0 (initial_quantities sf) (initial_cost sf) := by
    simp [init_frame]
  rw [hL] at hsim
  have hsols : sols = (dedup_emit []
      (leaves sf sf.products.length 0 (initial_quantities sf) (initial_cost sf))).1 :=
    congrArg Prod.fst hsim
  intro v
  show (∃ c, (v, c) ∈ sols) ↔ _
  rw [hsols, dedup_fst]
  simp only [List.not_mem_nil, not_false_iff, and_true]
  have hinv : frame_inv sf (⟨0, initial_quantities sf, initial_cost sf⟩ : Frame) :=
    init_frame_inv hnd hrg
  constructor
  · rintro ⟨c, hc⟩
    obtain ⟨hlen, hceq, hok, hnn⟩ := leaves_sound hinv (Nat.zero_add _) hc
    exact ⟨⟨hlen, hceq ▸ hok.1, hceq ▸ hok.2.1, hok.2.2⟩,
      fun i hi hlk => hnn i (Nat.zero_le i) hi hlk⟩
  · rintro ⟨⟨hlen, hmin, hmax, hcs⟩, hnn⟩
    exact ⟨dot v sf.products,
      leaves_complete v hinv (Nat.zero_add _) hpos hlen
        (fun i hi => absurd hi (Nat.not_lt_zero i)) ⟨hmin, hmax, hcs⟩ hnn⟩

/-- C1 witness: on the catalog `[10]` with interval `[10, 10]` the session
returns exactly `([1], 10)`, and indeed `[1]` is in the amended feasible
set. -/
theorem C1_witness :
    (∃ c, (([1] : List ℤ), c) ∈
      (⟨[(([1] : List ℤ), (10 : ℚ))], [[1]], false⟩ : RunOut).sols) ↔
      spec_feasible_nonneg ⟨[10], 10, 10, []⟩ [1] := by
  have hsess : session ⟨[10], 10, 10, []⟩ 2 4 [init_frame ⟨[10], 10, 10, []⟩] [] =
      some ⟨[([1], 10)], [[1]], false⟩ := by
    norm_num [session, find_next_solution, init_frame, initial_quantities,
      initial_cost, dot, popStep, children, lookupC, crashes_at, trunc_div,
      ratTrunc, descRange, childU, leaf_ok, constraints_sat, List.filterMap]
  refine C1_solution_set ?_ ?_ ?_ hsess rfl [1]
  · intro p hp
    rcases List.mem_singleton.mp hp with rfl
    norm_num
  · simp
  · intro pc hpc
    simp at hpc

theorem lex_of_agree :
    ∀ (j : ℕ) (u w : List ℤ), j < u.length → j < w.length →
      (∀ i, i < j → u.getD i 0 = w.getD i 0) → u.getD j 0 < w.getD j 0 →
      List.Lex (· < ·) u w := by
  intro j
  induction j with
  | zero =>
    intro u w hu hw _ hlt
    cases u with
    | nil => simp at hu
    | cons a u' =>
      cases w with
      | nil => simp at hw
      | cons b w' =>
        simp only [List.getD_cons_zero] at hlt
        exact List.Lex.rel hlt
  | succ m ih =>
    intro u w hu hw hag hlt
    cases u with
    | nil => simp at hu
    | cons a u' =>
      cases w with
      | nil => simp at hw
      | cons b w' =>
        have hab : a = b := by
          have h0 := hag 0 (Nat.succ_pos m)
          simpa using h0
        subst hab
        apply List.Lex.cons
        refine ih u' w' ?_ ?_ ?_ ?_
        · simp only [List.length_cons] at hu
          omega
        · simp only [List.length_cons] at hw
          omega
        · intro i hi
          have h1 := hag (i + 1) (by omega)
          simpa using h1
        · simpa using hlt

theorem pairwise_filterMap_of {α β : Type _} {R : α → α → Prop} {S : β → β → Prop}
    (f : α → Option β)
    (H : ∀ a b, R a b → ∀ x, f a = some x → ∀ y, f b = some y → S x y) :
    ∀ {l : List α}, l.Pairwise R → (l.filterMap f).Pairwise S := by
  intro l
  induction l with
  | nil =>
    intro _
    simp
  | cons a t ih =>
    intro h
    rw [List.pairwise_cons] at h
    rw [List.filterMap_cons]
    cases hf : f a with
    | none => exact ih h.2
    | some x =>
      rw [List.pairwise_cons]
      refine ⟨?_, ih h.2⟩
      intro y hy
      obtain ⟨b, hb, hfb⟩ := List.mem_filterMap.mp hy
      exact H a b (h.1 b hb) x hf y hfb

theorem pairwise_flatMap_of {α β : Type _} {R : β → β → Prop} {f : α → List β} :
    ∀ {l : List α}, (∀ a ∈ l, (f a).Pairwise R) →
      l.Pairwise (fun a b => ∀ x ∈ f a, ∀ y ∈ f b, R x y) →
      (l.flatMap f).Pairwise R := by
  intro l
  induction l with
  | nil =>
    intro _ _
    simp
  | cons a t ih =>
    intro h1 h2
    rw [List.pairwise_cons] at h2
    simp only [List.flatMap_cons]
    rw [List.pairwise_append]
    refine ⟨h1 a (List.mem_cons_self _ _),
      ih (fun b hb => h1 b (List.mem_cons_of_mem _ hb)) h2.2, ?_⟩
    intro x hx y hy
    obtain ⟨b, hb, hyb⟩ := List.mem_flatMap.mp hy
    exact h2.1 b hb x hx y hyb

theorem descRange_pairwise (hi lo : ℤ) :
    (descRange hi lo).Pairwise (fun a b => b < a) := by
  unfold descRange
  refine List.Pairwise.map _ ?_ (List.pairwise_lt_range _)
  intro a b hab
  omega

theorem children_qty_pairwise {sf : SolutionFinder} {idx : ℕ} {qs : List ℤ} {c : ℚ}
    (hlen : idx < qs.length) :
    (children sf idx qs c).Pairwise
      (fun f g => g.quantities.getD idx 0 < f.quantities.getD idx 0) := by
  unfold children
  cases hlk : lookupC sf.constraints idx with
  | some cst =>
    refine pairwise_filterMap_of _ ?_ (descRange_pairwise _ _)
    intro a b hab x hx y hy
    simp only [childC] at hx hy
    split_ifs at hx hy
    cases hx
    cases hy
    show (qs.set idx b).getD idx 0 < (qs.set idx a).getD idx 0
    rw [getD_set_self hlen, getD_set_self hlen]
    exact hab
  | none =>
    refine pairwise_filterMap_of _ ?_ (descRange_pairwise _ _)
    intro a b hab x hx y hy
    simp only [childU] at hx hy
    split_ifs at hx hy
    cases hx
    cases hy
    show (qs.set idx b).getD idx 0 < (qs.set idx a).getD idx 0
    rw [getD_set_self hlen, getD_set_self hlen]
    exact hab

theorem leaves_sorted {sf : SolutionFinder} :
    ∀ {k idx qs c}, qs.length = sf.products.length →
      idx + k = sf.products.length →
      (leaves sf k idx qs c).Pairwise (fun a b => List.Lex (· < ·) a.1 b.1) := by
  intro k
  induction k with
  | zero =>
    intro idx qs c _ _
    simp only [leaves]
    split_ifs
    · exact List.pairwise_singleton _ _
    · exact List.Pairwise.nil
  | succ n ih =>
    intro idx qs c hlen hkn
    have hidx : idx < qs.length := by omega
    simp only [leaves]
    apply pairwise_flatMap_of
    · intro f hf
      obtain ⟨hfidx, q, hfq⟩ := children_idx (List.mem_reverse.mp hf)
      refine ih ?_ (by rw [hfidx]; omega)
      rw [hfq, List.length_set]
      exact hlen
    · have hcp : (children sf idx qs c).reverse.Pairwise
          (fun f g => f.quantities.getD idx 0 < g.quantities.getD idx 0) := by
        rw [List.pairwise_reverse]
        exact children_qty_pairwise hidx
      refine hcp.imp_of_mem ?_
      intro f g hfmem hgmem hlt
      rintro ⟨xv, xc⟩ hx ⟨yv, yc⟩ hy
      obtain ⟨hfidx, qf, hfq⟩ := children_idx (List.mem_reverse.mp hfmem)
      obtain ⟨hgidx, qg, hgq⟩ := children_idx (List.mem_reverse.mp hgmem)
      have hxlen : xv.length = qs.length := by
        have h1 := leaves_len hx
        rw [h1, hfq, List.length_set]
      have hylen : yv.length = qs.length := by
        have h1 := leaves_len hy
        rw [h1, hgq, List.length_set]
      refine lex_of_agree idx xv yv (by omega) (by omega) ?_ ?_
      · intro i hi
        have hxa := leaves_agree hx i (by rw [hfidx]; omega)
        have hya := leaves_agree hy i (by rw [hgidx]; omega)
        rw [hxa, hya, hfq, hgq, getD_set_ne (show idx ≠ i by omega),
          getD_set_ne (show idx ≠ i by omega)]
      · have hxa := leaves_agree hx idx (by rw [hfidx]; omega)
        have hya := leaves_agree hy idx (by rw [hgidx]; omega)
        rw [hxa, hya]
        exact hlt

/-- C4 counterexample: on the catalog `[24.12]` (`= 603/25`) with interval
`[24.12, 48.24]` and no constraints, the complete session surfaces `[1]`
(one unit) strictly before `[2]` (two units): the lower-quantity solution
comes first, refuting highest-quantity-first surfacing order.  Descending
iteration means the *lowest* choice is pushed last, so the LIFO stack pops
it first. -/
theorem C4_counterexample :
    session ⟨[603/25], 603/25, 1206/25, []⟩ 3 6
        [init_frame ⟨[603/25], 603/25, 1206/25, []⟩] [] =
      some ⟨[([1], 603/25), ([2], 1206/25)], [[2], [1]], false⟩ ∧
    List.Lex (· < ·) ([1] : List ℤ) [2] := by
  constructor
  · norm_num [session, find_next_solution, init_frame, initial_quantities,
      initial_cost, dot, popStep, children, lookupC, crashes_at, trunc_div,
      ratTrunc, descRange, childU, leaf_ok, constraints_sat, List.filterMap]
  · exact List.Lex.rel (by norm_num)

/-- C4 (amended): per-item choices are iterated from the maximum down to
the minimum and pushed onto a LIFO stack, so the *last-pushed lowest*
choice is explored first: in every crash-free session driven from
`initialize_search`, the distinct solutions are surfaced in strictly
increasing lexicographic order of their quantity vectors — the exact
opposite of the claimed highest-quantity-first order. -/
theorem C4_output_order {sf : SolutionFinder} {calls popFuel seen0 out}
    (h : session sf calls popFuel [init_frame sf] seen0 = some out)
    (hcr : out.crashed = false) :
    out.sols.Pairwise (fun a b => List.Lex (· < ·) a.1 b.1) := by
  obtain ⟨sols, seenC, crashed⟩ := out
  have hcr' : crashed = false := hcr
  subst hcr'
  obtain ⟨fuel, hrun⟩ := session_to_runAll h rfl
  have hwf : ∀ f ∈ [init_frame sf], f.idx ≤ sf.products.length := by
    intro f hf
    rw [List.mem_singleton] at hf
    subst hf
    exact Nat.zero_le _
  have hsim := run_leaves hwf hrun
  have hL : [init_frame sf].flatMap
      (fun f => leaves sf (sf.products.length - f.idx) f.idx f.quantities f.cost) =
      leaves sf sf.products.length 0 (initial_quantities sf) (initial_cost sf) := by
    simp [init_frame]
  rw [hL] at hsim
  have hsols : sols = (dedup_emit seen0
      (leaves sf sf.products.length 0 (initial_quantities sf) (initial_cost sf))).1 :=
    congrArg Prod.fst hsim
  show sols.Pairwise _
  rw [hsols]
  exact List.Pairwise.sublist (dedup_sublist seen0)
    (leaves_sorted initial_quantities_length (Nat.zero_add _))

/-- C4 witness: the concrete session on catalog `[24.12]`, interval
`[24.12, 48.24]`, returns its two solutions in strictly increasing
lexicographic order. -/
theorem C4_witness :
    ([(([1] : List ℤ), (603/25 : ℚ)), ([2], 1206/25)] :
        List (List ℤ × ℚ)).Pairwise (fun a b => List.Lex (· < ·) a.1 b.1) := by
  have hsess : session ⟨[603/25], 603/25, 1206/25, []⟩ 3 6
      [init_frame ⟨[603/25], 603/25, 1206/25, []⟩] [] =
      some ⟨[([1], 603/25), ([2], 1206/25)], [[2], [1]], false⟩ := by
    norm_num [session, find_next_solution, init_frame, initial_quantities,
      initial_cost, dot, popStep, children, lookupC, crashes_at, trunc_div,
      ratTrunc, descRange, childU, leaf_ok, constraints_sat, List.filterMap]
  exact C4_output_order hsess rfl
